import Mathlib

/-!
Verification of the iptables-compose rule compiler against its design
specification.  Each C++ function that a claim depends on is embedded as an
executable Lean definition; machine integers are modelled as `Nat`/`Int` with
explicit truncation where the C++ type would truncate.  The theorems at the
end of the file settle the individual claims.
-/

set_option maxHeartbeats 1000000

/-! ## Shared character and string helpers -/

/-- Numeric value of a decimal digit character (`c - '0'` in the source). -/
def digitVal (c : Char) : Nat := c.toNat - 48

/-- Decimal digit test, byte range 48..57. -/
def isDigitChar (c : Char) : Bool := 48 ≤ c.toNat && c.toNat ≤ 57

/-- Whitespace as accepted by `isspace` in the C locale (space, TAB, LF, VT, FF, CR). -/
def isSpaceChar (c : Char) : Bool :=
  c.toNat = 32 || c.toNat = 9 || c.toNat = 10 || c.toNat = 11 || c.toNat = 12 || c.toNat = 13

/-- Value of a digit string, most significant digit first. -/
def digitsToNat (ds : List Char) : Nat := ds.foldl (fun acc c => acc * 10 + digitVal c) 0

/-- Split a character list at the first occurrence of `sep`
(mirrors `std::string::find` followed by the two `substr` calls).
Returns `none` when `sep` does not occur. -/
def splitFirst (sep : Char) : List Char → Option (List Char × List Char)
  | [] => none
  | c :: rest =>
    if c = sep then some ([], rest)
    else
      match splitFirst sep rest with
      | none => none
      | some (pre, post) => some (c :: pre, post)

/-- ULONG_MAX on the 64-bit targets the program is built for. -/
def ulongMax : Nat := 18446744073709551615

/-- Model of `std::stoul` (base 10): skip leading whitespace, read an optional
sign, then a non-empty run of decimal digits; `none` models the
`std::invalid_argument` / `std::out_of_range` exceptions.  A minus sign wraps
the magnitude in `unsigned long` arithmetic, exactly as `strtoul` does. -/
def stoulModel (l : List Char) : Option Nat :=
  let l1 := l.dropWhile isSpaceChar
  let signed : Bool × List Char :=
    match l1 with
    | c :: rest =>
      if c.toNat = 45 then (true, rest)
      else if c.toNat = 43 then (false, rest)
      else (false, l1)
    | [] => (false, [])
  let ds := signed.2.takeWhile isDigitChar
  if ds.isEmpty then none
  else
    let v := digitsToNat ds
    if v > ulongMax then none
    else some (if signed.1 then (ulongMax + 1 - v % (ulongMax + 1)) % (ulongMax + 1) else v)

/-! ## PortConfig::isValidPortRange (src/src/config.cpp, lines 84-105)

The source assigns the `std::stoul` results to `uint16_t` locals, which
truncates the parsed value modulo 65536 before the bound checks run; the
`> 65535` comparisons are therefore dead on `uint16_t`.  The embedding keeps
the truncation and the dead comparisons verbatim. -/

/-- Embedding of `PortConfig::isValidPortRange`. -/
def isValidPortRange (s : String) : Bool :=
  match splitFirst (Char.ofNat 45) s.toList with
  | none => false
  | some (pre, post) =>
    match stoulModel pre, stoulModel post with
    | some v1, some v2 =>
      let lo := v1 % 65536
      let hi := v2 % 65536
      if lo < 1 || lo > 65535 || hi < 1 || hi > 65535 then false
      else if lo ≥ hi then false
      else true
    | _, _ => false

/-- Acceptance predicate written from the specification sentence: a range
string has the form lo-hi with both endpoints decimal integers in [1,65535]
and lo < hi.  Used only to compare the source behaviour with the
specification. -/
def specPortRangeAccepts (s : String) : Bool :=
  match splitFirst (Char.ofNat 45) s.toList with
  | none => false
  | some (pre, post) =>
    !pre.isEmpty && !post.isEmpty && pre.all isDigitChar && post.all isDigitChar &&
      (1 ≤ digitsToNat pre && digitsToNat pre < digitsToNat post && digitsToNat post ≤ 65535)

/-! ## CIDR parsing and containment
(RuleValidator::parseCIDR, src/src/rule_validator.cpp lines 286-312;
RuleValidator::subnetContains, lines 145-168)

A `Cidr` records a successfully parsed CIDR string: four dotted-quad octets
and the optional `/N` suffix (a bare address carries no suffix and defaults
to 32, as in the source).  `inet_aton` and `std::stoi` string handling is
elided; the arithmetic on the parsed values follows the source exactly. -/

/-- A parsed CIDR string: octets `a.b.c.d` with optional prefix length. -/
structure Cidr where
  a : Nat
  b : Nat
  c : Nat
  d : Nat
  pfxLen : Option Nat
deriving DecidableEq

/-- Validity of a parsed CIDR per the specification: octets are bytes and the
prefix length, when present, is at most 32. -/
def Cidr.Valid (x : Cidr) : Prop :=
  x.a ≤ 255 ∧ x.b ≤ 255 ∧ x.c ≤ 255 ∧ x.d ≤ 255 ∧ ∀ p ∈ x.pfxLen, p ≤ 32

instance (x : Cidr) : Decidable x.Valid := by
  unfold Cidr.Valid
  infer_instance

/-- UINT32_MAX, the value of `~0U`. -/
def uint32Max : Nat := 4294967295

/-- The host-order 32-bit integer produced by `ntohl(inet_aton(...))`. -/
def rawIp (x : Cidr) : Nat := ((x.a * 256 + x.b) * 256 + x.c) * 256 + x.d

/-- Prefix length with the source default of 32 for a bare address. -/
def cidrPfx (x : Cidr) : Nat := x.pfxLen.getD 32

/-- Network integer returned by `RuleValidator::parseCIDR`: the address is
masked with `~0U << (32 - prefix)` when the prefix is below 32.  For prefix 0
the C++ shift by 32 is undefined behaviour; the embedding takes the
modulo-2^32 reading of the shift, which yields the all-zero mask that
`subnetContains` uses for prefix 0. -/
def parseCIDRNet (x : Cidr) : Nat :=
  let p := cidrPfx x
  if p < 32 then rawIp x &&& ((uint32Max <<< (32 - p)) % 4294967296) else rawIp x

/-- Mask computed inside `RuleValidator::subnetContains`:
`(prefix_a == 0) ? 0 : (~0U << (32 - prefix_a))`. -/
def maskOf (p : Nat) : Nat :=
  if p = 0 then 0 else (uint32Max <<< (32 - p)) % 4294967296

/-- Embedding of `RuleValidator::subnetContains`. -/
def subnetContains (x y : Cidr) : Bool :=
  let netA := parseCIDRNet x
  let pA := cidrPfx x
  let netB := parseCIDRNet y
  let pB := cidrPfx y
  if pA > pB then false
  else (netA &&& maskOf pA) == (netB &&& maskOf pA)

/-- Concrete containing subnet used to instantiate the containment theorem. -/
def cidrOuter : Cidr := ⟨10, 0, 0, 0, some 8⟩

/-- Concrete contained subnet used to instantiate the containment theorem. -/
def cidrInner : Cidr := ⟨10, 1, 0, 0, some 16⟩

/-! ## Typed model leaves (src/include/config.hpp, src/include/rule.hpp) -/

/-- Direction enum: the three built-in filter chains a rule can target. -/
inductive Direction where
  | input
  | output
  | forward
deriving DecidableEq

/-- Action enum (named RuleAction here to avoid clashing with a library
name): the three iptables targets. -/
inductive RuleAction where
  | accept
  | drop
  | reject
deriving DecidableEq

/-- Protocol enum. -/
inductive Protocol where
  | tcp
  | udp
deriving DecidableEq

/-- InterfaceConfig: optional input interface, output interface, and chain
call target. -/
structure InterfaceConfig where
  input : Option String
  output : Option String
  chain : Option String
deriving DecidableEq

/-! ## TcpRule and the comment codec
(Rule::buildYamlComment, src/src/rule.cpp lines 158-171;
TcpRule::getComment, src/src/tcp_rule.cpp lines 87-112) -/

/-- The data of a TcpRule object: the Rule base members (direction, action,
interface, subnets, target chain) plus the TcpRule members. -/
structure TcpRule where
  port : Nat
  direction : Direction
  action : RuleAction
  interface : InterfaceConfig
  subnets : List String
  mac_source : Option String
  forward_port : Option Nat
  section_name : String
  target_chain : Option String
deriving DecidableEq

/-- Embedding of `Rule::getInterfaceComment`. -/
def TcpRule.getInterfaceComment (r : TcpRule) : String :=
  "i:" ++ r.interface.input.getD "any" ++ ":o:" ++ r.interface.output.getD "any"

/-- Embedding of `Rule::buildYamlComment`: the canonical identifier comment.
Note that neither the direction, nor the action, nor the subnet list of the
rule enters the string. -/
def TcpRule.buildYamlComment (r : TcpRule) (sectionName ruleType details macSource : String) :
    String :=
  "YAML:" ++ sectionName ++ ":" ++ ruleType ++ ":" ++ details ++ ":" ++
    r.getInterfaceComment ++ ":mac:" ++ macSource

/-- Embedding of `TcpRule::getComment`. -/
def TcpRule.getComment (r : TcpRule) : String :=
  let macComment := r.mac_source.getD "any"
  match r.forward_port with
  | some f =>
    r.buildYamlComment r.section_name "tcp" ("port:" ++ toString r.port ++ ":forward:" ++ toString f) macComment
  | none =>
    match r.target_chain with
    | some c =>
      r.buildYamlComment r.section_name "tcp" ("port:" ++ toString r.port ++ ":chain:" ++ c) macComment
    | none =>
      r.buildYamlComment r.section_name "tcp" ("port:" ++ toString r.port) macComment

/-- Concrete inbound TCP rule used to exhibit a comment collision. -/
def tcpRuleIn : TcpRule :=
  ⟨80, Direction.input, RuleAction.accept, ⟨none, none, none⟩, [], none, none, "web", none⟩

/-- The same rule with the opposite direction: a distinct typed rule. -/
def tcpRuleOut : TcpRule :=
  ⟨80, Direction.output, RuleAction.accept, ⟨none, none, none⟩, [], none, none, "web", none⟩

/-- Concrete rule pair differing only in subnets, used for the amended
comment statement. -/
def tcpRuleSubnetted : TcpRule :=
  ⟨443, Direction.input, RuleAction.drop, ⟨some "eth0", none, none⟩, ["10.0.0.0/8"], none, none, "web", none⟩

/-- Partner of tcpRuleSubnetted with a different subnet list and action. -/
def tcpRuleSubnetted2 : TcpRule :=
  ⟨443, Direction.input, RuleAction.accept, ⟨some "eth0", none, none⟩, ["192.168.0.0/16"], none, none, "web", none⟩

/-! ## Rule selectivity analysis
(RuleValidator::validateRuleOrder, src/src/rule_validator.cpp lines 10-44;
RuleValidator::isRuleUnreachable, lines 46-143;
RuleValidator::isInterfaceMoreSpecific, lines 314-332)

The selectivity records are the output of `extractRuleSelectivity`; the
validator is embedded at that boundary, taking the extracted list in append
order.  Subnet strings appear here already parsed as `Cidr` values (the
string-level `parseCIDR` failure path of `subnetContains` returns false and
is not exercised by these claims).  The human-readable `rule_description` and
`message` strings are elided: only the warning kind and the rule coordinates
matter to the claims. -/

/-- RuleSelectivity record (src/include/rule_validator.hpp). -/
structure RuleSelectivity where
  subnets : Option (List Cidr)
  port : Option Int
  port_ranges : Option (List String)
  protocol : Protocol
  input_interface : Option String
  output_interface : Option String
  mac_source : Option String
  allow : Bool
  section_name : String
  rule_index : Nat
deriving DecidableEq

/-- Embedding of `RuleValidator::isInterfaceMoreSpecific`. -/
def isInterfaceMoreSpecific (specific general : Option String) : Bool :=
  match general with
  | none => true
  | some g =>
    match specific with
    | none => false
    | some s => g == s

/-- Check 1 of `isRuleUnreachable`: every subnet of rule b is contained in
some subnet of rule a; a missing list on the a side is more general, a
missing list on the b side makes b more general. -/
def subnetDimCovers (a b : RuleSelectivity) : Bool :=
  match a.subnets, b.subnets with
  | some sa, some sb => sb.all (fun sb1 => sa.any (fun sa1 => subnetContains sa1 sb1))
  | none, some _ => true
  | some _, none => false
  | none, none => true

/-- Shared shape of checks 2 and 5 of `isRuleUnreachable` (single port and
MAC source): equal when both present, the a side may be absent, the b side
may not be absent alone. -/
def optEqDimCovers {α : Type} [BEq α] (oa ob : Option α) : Bool :=
  match oa, ob with
  | some va, some vb => va == vb
  | none, some _ => true
  | some _, none => false
  | none, none => true

/-- Embedding of `RuleValidator::isRuleUnreachable`: the six numbered checks
of the source in order.  Once checks 1-5 establish that rule a covers rule b,
the three action cases at the end each return true. -/
def isRuleUnreachable (a b : RuleSelectivity) : Bool :=
  if !subnetDimCovers a b then false
  else if !optEqDimCovers a.port b.port then false
  else if !decide (a.protocol = b.protocol) then false
  else if !isInterfaceMoreSpecific b.input_interface a.input_interface then false
  else if !isInterfaceMoreSpecific b.output_interface a.output_interface then false
  else if !optEqDimCovers a.mac_source b.mac_source then false
  else if !a.allow && b.allow then true
  else if a.allow && !b.allow then true
  else if a.allow == b.allow then true
  else false

/-- The pure superset test of checks 1-5, without the action cases.  Used to
state that `isRuleUnreachable` degenerates to it. -/
def supersetMatches (a b : RuleSelectivity) : Bool :=
  subnetDimCovers a b &&
  optEqDimCovers a.port b.port &&
  decide (a.protocol = b.protocol) &&
  isInterfaceMoreSpecific b.input_interface a.input_interface &&
  isInterfaceMoreSpecific b.output_interface a.output_interface &&
  optEqDimCovers a.mac_source b.mac_source

/-- Warning kinds (src/include/rule_validator.hpp, ValidationWarning::Type). -/
inductive WarnType where
  | UnreachableRule
  | RedundantRule
  | SubnetOverlap
  | InvalidChainReference
  | CircularChainDependency
  | ChainActionConflict
deriving DecidableEq

/-- ValidationWarning record; the message text is elided. -/
structure ValidationWarning where
  wtype : WarnType
  section_name : String
  rule_index : Nat
  conflicting_section : String
  conflicting_rule_index : Nat
deriving DecidableEq

/-- The warning `validateRuleOrder` constructs for a shadowed pair: its kind
is always UnreachableRule. -/
def mkUnreachableWarning (earlier later : RuleSelectivity) : ValidationWarning :=
  ⟨WarnType.UnreachableRule, later.section_name, later.rule_index,
    earlier.section_name, earlier.rule_index⟩

/-- Embedding of the pairwise loop of `RuleValidator::validateRuleOrder`:
for every i and every j below i, compare rules[j] (earlier) against rules[i]
(later). -/
def validateRuleOrder (rules : List RuleSelectivity) : List ValidationWarning :=
  (List.range rules.length).flatMap (fun i =>
    (List.range i).filterMap (fun j =>
      match rules[j]?, rules[i]? with
      | some earlier, some later =>
        if isRuleUnreachable earlier later then some (mkUnreachableWarning earlier later)
        else none
      | _, _ => none))

/-- Concrete earlier rule (port 22 accept) for the C4 counterexample. -/
def selRuleA : RuleSelectivity :=
  ⟨none, some 22, none, Protocol.tcp, none, none, none, true, "x", 0⟩

/-- Concrete later rule with the same match set and the same action. -/
def selRuleB : RuleSelectivity :=
  ⟨none, some 22, none, Protocol.tcp, none, none, none, true, "x", 1⟩

/-! ## Port rule lowering
(IptablesManager::processPortConfig, src/src/iptables_manager.cpp
lines 285-497; the helper getInterfaceComment, lines 37-44)

The embedding returns the list of iptables argument vectors the function
passes to the executor: the empty list on the two validation-error exits,
otherwise exactly one command.  Console output and the
`removeRulesBySignature` pre-pass are elided; they issue no append command. -/

/-- PortConfig record (src/include/config.hpp lines 70-80). -/
structure PortConfig where
  port : Option Nat
  range : Option (List String)
  protocol : Protocol
  direction : Direction
  subnet : Option (List String)
  forward : Option Nat
  allow : Bool
  interface : Option InterfaceConfig
  mac_source : Option String
  chain : Option String
deriving DecidableEq

/-- Embedding of the free helper `getInterfaceComment` of
iptables_manager.cpp. -/
def getInterfaceComment (iface : Option InterfaceConfig) : String :=
  match iface with
  | some ic => "i:" ++ ic.input.getD "any" ++ ":o:" ++ ic.output.getD "any"
  | none => "i:any:o:any"

/-- Protocol spelling used in commands and comments. -/
def protoString (p : Protocol) : String :=
  match p with
  | Protocol.tcp => "tcp"
  | Protocol.udp => "udp"

/-- Built-in chain selected from the rule direction. -/
def directionChainName (d : Direction) : String :=
  match d with
  | Direction.input => "INPUT"
  | Direction.output => "OUTPUT"
  | Direction.forward => "FORWARD"

/-- Interface arguments: `-i` and `-o` for whichever sides are present. -/
def ifaceArgs (iface : Option InterfaceConfig) : List String :=
  match iface with
  | none => []
  | some ic =>
    (match ic.input with | some i => ["-i", i] | none => []) ++
      (match ic.output with | some o => ["-o", o] | none => [])

/-- MAC source match arguments. -/
def macSrcArgs (m : Option String) : List String :=
  match m with
  | some mac => ["-m", "mac", "--mac-source", mac]
  | none => []

/-- The port description string: the single port number, or
`multiport:` followed by the comma-joined ranges; `none` when neither field
is set (the "invalid port configuration" error exit). -/
def portDescriptionOf (p : PortConfig) : Option String :=
  match p.port with
  | some n => some (toString n)
  | none =>
    match p.range with
    | some rs => some ("multiport:" ++ String.intercalate "," rs)
    | none => none

/-- Subnet arguments of the regular path (lines 451-460): a single `-s`
argument holding the comma-joined subnet list when any subnets are present. -/
def portRuleSubnetArgs (port : PortConfig) : List String :=
  match port.subnet with
  | some l => if !l.isEmpty then ["-s", String.intercalate "," l] else []
  | none => []

/-- Port matching arguments of the regular path (lines 466-480): the single
port via the protocol match, or the ranges via the multiport extension. -/
def portRulePortArgs (port : PortConfig) : List String :=
  match port.port with
  | some n => ["-m", protoString port.protocol, "--dport", toString n]
  | none =>
    match port.range with
    | some rs => ["-m", "multiport", "--dports", String.intercalate "," rs]
    | none => []

/-- Comment of the regular path (lines 401-409), with the chain suffix when a
chain target is present. -/
def portRuleComment (port : PortConfig) (section_name port_description : String) : String :=
  let base := "YAML:" ++ section_name ++ ":port:" ++ port_description ++ ":" ++
    getInterfaceComment port.interface ++ ":mac:" ++ port.mac_source.getD "any"
  match port.chain with
  | some c => base ++ ":chain:" ++ c
  | none => base

/-- Trailing comment and target arguments of the regular path
(lines 482-487). -/
def portRuleTailArgs (port : PortConfig) (section_name port_description : String) : List String :=
  ["-m", "comment", "--comment", portRuleComment port section_name port_description, "-j",
    match port.chain with
    | some c => c
    | none => if port.allow then "ACCEPT" else "DROP"]

/-- Embedding of `IptablesManager::processPortConfig`: the append commands it
issues.  Note the subnet handling: all subnets are joined with commas into
one `-s` argument of one command (lines 451-460); there is no per-subnet
fan-out. -/
def processPortConfigCommands (port : PortConfig) (section_name : String) : List (List String) :=
  match portDescriptionOf port with
  | none => []
  | some port_description =>
    match port.forward with
    | some fwd =>
      if port.range.isSome then []
      else
        let comment := "YAML:" ++ section_name ++ ":port:" ++ port_description ++ ":forward:" ++
          getInterfaceComment port.interface ++ ":mac:" ++ port.mac_source.getD "any"
        let ps := protoString port.protocol
        [["-t", "nat", "-A", "PREROUTING"] ++ ifaceArgs port.interface ++
          macSrcArgs port.mac_source ++
          ["-p", ps, "-m", ps, "--dport", toString (port.port.getD 0),
            "-m", "comment", "--comment", comment, "-j", "REDIRECT", "--to-port", toString fwd]]
    | none =>
      [["-A", directionChainName port.direction] ++ ifaceArgs port.interface ++
        macSrcArgs port.mac_source ++ portRuleSubnetArgs port ++
        ["-p", protoString port.protocol] ++ portRulePortArgs port ++
        portRuleTailArgs port section_name port_description]

/-- Concrete port rule with two source subnets for the C5 counterexample. -/
def portCfgTwoSubnets : PortConfig :=
  ⟨some 80, none, Protocol.tcp, Direction.input,
    some ["10.0.0.0/8", "192.168.1.0/24"], none, true, none, none, none⟩

/-! ## System environment probe and the main validation gate
(SystemUtils::validateSystemRequirements, src/src/system_utils.cpp
lines 80-115; main, src/src/main.cpp lines 30-49)

The process environment is abstracted into a record; the diagnostic strings
follow the source (the single-quote marks around quoted command names in two
advice strings are elided). -/

/-- Abstraction of the process environment the probe reads. -/
structure SysEnv where
  euid : Nat
  iptablesAvailable : Bool
  pathVar : Option String
  debug : Bool
deriving DecidableEq

/-- Embedding of `SystemUtils::isRunningAsRoot`. -/
def isRunningAsRoot (env : SysEnv) : Bool := env.euid == 0

/-- Embedding of `SystemUtils::validateSystemRequirements`: it returns the
accumulated diagnostics as a vector and throws nothing. -/
def validateSystemRequirements (env : SysEnv) : List String :=
  (if isRunningAsRoot env then []
   else
     ["This application requires root privileges to modify iptables rules",
      "Debug: Current effective UID is " ++ toString env.euid ++ " (root UID is 0)",
      "Debug: Try running with sudo or as root user"]) ++
  (if env.iptablesAvailable then []
   else
     ["iptables command not found in system PATH",
      "Debug: iptables package may not be installed",
      "Debug: Install with apt install iptables (Ubuntu/Debian) or yum install iptables (CentOS/RHEL)"] ++
       (match env.pathVar with
        | some p => ["Debug: Current PATH: " ++ p]
        | none => []))

/-- Outcome of the validation phase of main: either the process exits with
code 1, or it proceeds to the kernel-mutating phases. -/
inductive GateOutcome where
  | exitFailure
  | proceed
deriving DecidableEq

/-- Embedding of the validation phase of `main` (main.cpp lines 33-49): in
debug mode validation is skipped; otherwise `validateSystemRequirements()` is
called with its returned error vector discarded, and the surrounding catch
handles only `std::runtime_error`, which the callee never throws.  Execution
therefore always proceeds. -/
def mainValidationGate (env : SysEnv) : GateOutcome :=
  if env.debug then GateOutcome.proceed
  else
    let _discardedErrors := validateSystemRequirements env
    GateOutcome.proceed

/-- Concrete non-root, non-debug environment. -/
def nonRootEnv : SysEnv := ⟨1000, true, some "/usr/sbin:/usr/bin", false⟩

/-! ## Command executor
(CommandExecutor::execute on a vector, src/src/command_executor.cpp
lines 15-27; CommandExecutor::execute on a string, lines 29-107;
CommandExecutor::executeInternal, lines 228-318;
argsToCommand and escapeShellArg, lines 362-396)

The child-process side effects are abstracted into world records holding what
the process runner would produce; the result construction follows the source
on every path. -/

/-- CommandResult with the field initializers of the header
(success = false, exit_code = -1). -/
structure CommandResult where
  success : Bool := false
  exit_code : Int := -1
  stdout_output : String := ""
  stderr_output : String := ""
  command : String := ""
deriving DecidableEq

/-- Embedding of `CommandResult::isSuccess`. -/
def CommandResult.isSuccess (r : CommandResult) : Bool :=
  r.success && r.exit_code == 0

/-- The characters that force shell quoting in `escapeShellArg`, by byte
value: space TAB LF CR double-quote single-quote backslash dollar backtick
pipe ampersand semicolon less greater parens braces brackets question star
tilde. -/
def shellSpecialChars : List Char :=
  [32, 9, 10, 13, 34, 39, 92, 36, 96, 124, 38, 59, 60, 62, 40, 41, 123, 125,
    91, 93, 63, 42, 126].map Char.ofNat

/-- The single-quote character. -/
def squoteChar : Char := Char.ofNat 39

/-- The five-character sequence that replaces an embedded single quote:
quote, double-quote, quote, double-quote, quote. -/
def squoteEscape : List Char := [39, 34, 39, 34, 39].map Char.ofNat

/-- Embedding of `CommandExecutor::escapeShellArg`. -/
def escapeShellArg (arg : String) : String :=
  if arg.toList.all (fun c => !shellSpecialChars.contains c) then arg
  else
    String.mk (squoteChar ::
      arg.toList.flatMap (fun c => if c = squoteChar then squoteEscape else [c]) ++
      [squoteChar])

/-- Embedding of `CommandExecutor::argsToCommand`. -/
def argsToCommand (args : List String) : String :=
  if args.isEmpty then "" else String.intercalate " " (args.map escapeShellArg)

/-- WEXITSTATUS: bits 8..15 of the raw wait status. -/
def wexitstatus (status : Nat) : Nat := status / 256 % 256

/-- World of the string-overload `execute`: an exception inside the try
block, the popen outcome, the merged output read, and the pclose status. -/
structure StrWorld where
  throwsMsg : Option String
  popenOk : Bool
  output : String
  exitStatus : Nat

/-- Embedding of `CommandExecutor::execute(const std::string&)`
(lines 29-107), covering the popen-failure, normal, and exception paths. -/
def executeStr (command : String) (w : StrWorld) : CommandResult :=
  match w.throwsMsg with
  | some msg =>
    { success := false, exit_code := -1,
      stderr_output := "Exception during command execution: " ++ msg, command := command }
  | none =>
    if !w.popenOk then
      { success := false, exit_code := 1,
        stderr_output := "Failed to execute command: " ++ command, command := command }
    else
      let exitCode : Int := Int.ofNat (wexitstatus w.exitStatus)
      { success := exitCode == 0, exit_code := exitCode, stdout_output := w.output,
        stderr_output := "", command := command }

/-- First index at which `pat` occurs in the list, searching from offset `i`
(the model of `std::string::find`). -/
def findSubFrom (pat : List Char) : List Char → Nat → Option Nat
  | [], i => if pat.isPrefixOf ([] : List Char) then some i else none
  | c :: rest, i =>
    if pat.isPrefixOf (c :: rest) then some i
    else findSubFrom pat rest (i + 1)

/-- INT_MAX, for the `std::stoi` range check. -/
def intMax : Nat := 2147483647

/-- Model of `std::stoi` (base 10); `none` models both exception kinds, which
the source turns into exit code -1. -/
def stoiModel (l : List Char) : Option Int :=
  let l1 := l.dropWhile isSpaceChar
  let signed : Bool × List Char :=
    match l1 with
    | c :: rest =>
      if c.toNat = 45 then (true, rest)
      else if c.toNat = 43 then (false, rest)
      else (false, l1)
    | [] => (false, [])
  let ds := signed.2.takeWhile isDigitChar
  if ds.isEmpty then none
  else
    let v := digitsToNat ds
    if signed.1 then
      if v > intMax + 1 then none else some (-(Int.ofNat v))
    else
      if v > intMax then none else some (Int.ofNat v)

/-- The exit-code marker extraction of `executeInternal` (lines 264-280):
returns the parsed exit code (with the -1 default of the result record when
no marker or no closing marker is found, or parsing throws) and the stdout
text truncated at the marker. -/
def extractExitCode (s : List Char) : Int × List Char :=
  match findSubFrom "__EXIT_CODE_0__".toList s 0 with
  | some pos0 => (0, s.take pos0)
  | none =>
    match findSubFrom "__EXIT_CODE_".toList s 0 with
    | some pos =>
      let digitsStart := pos + 12
      match findSubFrom "__".toList (s.drop digitsStart) 0 with
      | some off => ((stoiModel ((s.drop digitsStart).take off)).getD (-1), s.take pos)
      | none => (-1, s.take pos)
    | none => (-1, s)

/-- Removal of one trailing newline (lines 298-303). -/
def trimNl (s : String) : String :=
  match s.toList.getLast? with
  | some c => if c.toNat = 10 then String.mk s.toList.dropLast else s
  | none => s

/-- World of `executeInternal`: the `std::system` status for the no-capture
path, the popen outcome, the raw captured stdout (with markers), and the
stderr temp-file read. -/
structure InternalWorld where
  systemStatus : Nat
  pipeOk : Bool
  rawStdout : String
  stderrPipeOk : Bool
  rawStderr : String

/-- Embedding of `CommandExecutor::executeInternal` (lines 228-318). -/
def executeInternal (command : String) (captureOutput : Bool) (w : InternalWorld) :
    CommandResult :=
  if !captureOutput then
    let code : Int := Int.ofNat (wexitstatus w.systemStatus)
    { success := code == 0, exit_code := code, command := command }
  else if !w.pipeOk then
    { success := false, exit_code := -1, stderr_output := "Failed to execute command",
      command := command }
  else
    let ec := extractExitCode w.rawStdout.toList
    let stderrRes := if w.stderrPipeOk then w.rawStderr else ""
    { success := ec.1 == 0, exit_code := ec.1,
      stdout_output := trimNl (String.mk ec.2), stderr_output := trimNl stderrRes,
      command := command }

/-- Embedding of `CommandExecutor::execute(const std::vector<std::string>&)`
(lines 15-27): empty-argument guard, then executeInternal with output capture
(the default of the declaration). -/
def executeArgs (args : List String) (w : InternalWorld) : CommandResult :=
  if args.isEmpty then
    { success := false, exit_code := -1, stderr_output := "No command specified", command := "" }
  else executeInternal (argsToCommand args) true w

/-! ## Chain listing and cleanup
(ChainManager::listChains, src/src/chain_manager.cpp lines 130-165;
ChainManager::chainExists, lines 92-128; ChainManager::deleteChain,
lines 42-72; ChainManager::cleanupChains, lines 267-305)

The kernel state observed through `iptables -t filter -L -n` is abstracted as
the list of its output lines.  The executor calls are replaced by the trace
of flush (`-F`) and delete (`-X`) commands a cleanup run issues; a flush
failure truncates the pair in the source, which only removes commands from
the trace and never changes their targets. -/

/-- The five built-in chain names the listing parser skips. -/
def builtinChains : List String := ["INPUT", "OUTPUT", "FORWARD", "PREROUTING", "POSTROUTING"]

/-- Parse one listing line exactly as the source does: the line must start
with "Chain ", and the name runs to the next space (a line without a second
space yields nothing). -/
def parseChainLine (line : String) : Option String :=
  let l := line.toList
  if List.isPrefixOf "Chain ".toList l then
    let rest := l.drop 6
    match findSubFrom [Char.ofNat 32] rest 0 with
    | some idx => some (String.mk (rest.take idx))
    | none => none
  else none

/-- Embedding of `ChainManager::listChains` (non-debug path): the parsed
chain names with the built-in chains skipped. -/
def listChainsParse (lines : List String) : List String :=
  lines.filterMap (fun line =>
    match parseChainLine line with
    | some name => if builtinChains.contains name then none else some name
    | none => none)

/-- Embedding of `ChainManager::chainExists`: empty names are rejected, and
the scan skips built-in names before comparing, which is membership in the
filtered parse of the same listing. -/
def chainExistsB (lines : List String) (name : String) : Bool :=
  if name = "" then false
  else (listChainsParse lines).contains name

/-- The two kernel-mutating commands chain deletion can issue. -/
inductive IptCmd where
  | flush (chain : String)
  | delete (chain : String)
deriving DecidableEq

/-- Target chain of a command. -/
def IptCmd.chainOf : IptCmd → String
  | IptCmd.flush c => c
  | IptCmd.delete c => c

/-- Embedding of `ChainManager::deleteChain` as its command trace: an empty
name errors out with no command, a missing chain is success with no command,
otherwise the chain is flushed and then deleted. -/
def deleteChainTrace (lines : List String) (name : String) : List IptCmd :=
  if name = "" then []
  else if chainExistsB lines name then [IptCmd.flush name, IptCmd.delete name]
  else []

/-- Trace of `ChainManager::cleanupChains` over a given chain list (the
kernel listing in normal mode, the managed set in debug mode). -/
def cleanupChainsTrace (chains : List String) (lines : List String) : List IptCmd :=
  chains.flatMap (deleteChainTrace lines)

/-- The full non-debug cleanup: delete every custom chain the kernel lists. -/
def cleanupChainsCommands (lines : List String) : List IptCmd :=
  cleanupChainsTrace (listChainsParse lines) lines

/-- The delete targets of a trace, in issue order. -/
def deleteTargets (cmds : List IptCmd) : List String :=
  cmds.filterMap (fun c =>
    match c with
    | IptCmd.delete n => some n
    | IptCmd.flush _ => none)

/-! ## Chain dependency graph and topological sort
(ChainManager::buildDependencyGraph produces a std::map from each chain name
to the std::set of chain names its rules jump to;
ChainManager::topologicalSort, src/src/chain_manager.cpp lines 381-422;
ChainManager::hasCycle, lines 346-379)

The graph is an association list: one entry per chain, keys distinct (a
std::map invariant, carried as a hypothesis), each neighbor list duplicate
free (a std::set invariant).  The in-degree std::map is an association list
kept in the same order a std::map would keep: updates are in place and
insertions walk to the ordered position. -/

/-- The dependency graph: chain name to the chains its rules jump to. -/
abbrev Graph := List (String × List String)

/-- Neighbor set of a node (`graph.find(node)`, empty when absent). -/
def nsOf (g : Graph) (u : String) : List String :=
  match g.find? (fun e => e.1 = u) with
  | some e => e.2
  | none => []

/-- Edge relation of the graph: u jumps to v. -/
def Edge (g : Graph) (u v : String) : Prop := v ∈ nsOf g u

instance (g : Graph) (u v : String) : Decidable (Edge g u v) := by
  unfold Edge
  infer_instance

/-- Byte-wise lexicographic comparison of the std::map key order. -/
def charListLt : List Char → List Char → Bool
  | [], [] => false
  | [], _ :: _ => true
  | _ :: _, [] => false
  | c :: cs, d :: ds =>
    if c.toNat < d.toNat then true
    else if d.toNat < c.toNat then false
    else charListLt cs ds

/-- String order of std::map over std::string. -/
def strLt (a b : String) : Bool := charListLt a.toList b.toList

/-- The in-degree map. -/
abbrev DegMap := List (String × Int)

/-- Lookup with the zero default of a value-initialized std::map entry. -/
def degGet : DegMap → String → Int
  | [], _ => 0
  | e :: rest, k => if e.1 = k then e.2 else degGet rest k

/-- Key presence. -/
def degHas : DegMap → String → Bool
  | [], _ => false
  | e :: rest, k => if e.1 = k then true else degHas rest k

/-- In-place update of the entry holding key k (std::map keys are unique). -/
def degUpdate : DegMap → String → Int → DegMap
  | [], _, _ => []
  | e :: rest, k, v => if e.1 = k then (e.1, v) :: rest else e :: degUpdate rest k v

/-- Insertion of a fresh key at its ordered position. -/
def degInsert : DegMap → String → Int → DegMap
  | [], k, v => [(k, v)]
  | e :: rest, k, v =>
    if strLt k e.1 then (k, v) :: e :: rest else e :: degInsert rest k v

/-- The semantics of `in_degree[k] += delta` on a std::map: update in place
when present, insert the (zero-initialized plus delta) value when absent. -/
def degAdd (m : DegMap) (k : String) (delta : Int) : DegMap :=
  if degHas m k then degUpdate m k (degGet m k + delta) else degInsert m k delta

/-- The semantics of `in_degree[k] = v`. -/
def degSet (m : DegMap) (k : String) (v : Int) : DegMap :=
  if degHas m k then degUpdate m k v else degInsert m k v

/-- The in-degree computation of `topologicalSort` (lines 385-394): zero
every key, then increment the entry of every neighbor of every node. -/
def buildInDegree (g : Graph) : DegMap :=
  let init := g.foldl (fun m e => degSet m e.1 0) []
  g.foldl (fun m e => e.2.foldl (fun m2 n => degAdd m2 n 1) m) init

/-- One pass of the inner neighbor loop (lines 410-418): decrement each
neighbor in order and collect, in order, those whose counter reaches zero
(the nodes pushed onto the queue). -/
def decAll (m : DegMap) : List String → DegMap × List String
  | [] => (m, [])
  | n :: rest =>
    let m2 := degAdd m n (-1)
    let res := decAll m2 rest
    if degGet m2 n == 0 then (res.1, n :: res.2) else res

/-- The queue-processing loop of `topologicalSort` (lines 404-419), with a
fuel bound that the caller sizes generously; the loop pops the front node,
appends it to the result, and pushes the neighbors whose in-degree reached
zero. -/
def kahnRun : Nat → Graph → List String → DegMap → List String → List String
  | _, _, [], _, result => result
  | 0, _, _ :: _, _, result => result
  | fuel + 1, g, current :: rest, m, result =>
    let step := decAll m (nsOf g current)
    kahnRun fuel g (rest ++ step.2) step.1 (result ++ [current])

/-- Total positive in-degree, used only to size the fuel. -/
def degSum (m : DegMap) : Nat := (m.map (fun e => e.2.toNat)).sum

/-- Embedding of `ChainManager::topologicalSort`: Kahn processing seeded with
the zero-in-degree keys in map order. -/
def topologicalSort (g : Graph) : List String :=
  let m := buildInDegree g
  let queue := (m.filter (fun e => e.2 == 0)).map Prod.fst
  kahnRun (m.length + degSum m + 1) g queue m []

/-- The chains whose rules jump to v: the sources of the edges into v. -/
def sourcesOf (g : Graph) (v : String) : List String :=
  (g.filter (fun e => decide (v ∈ e.2))).map Prod.fst

/-- How many sources of v already sit in the result list r. -/
def srcCount (g : Graph) (r : List String) (v : String) : Nat :=
  ((sourcesOf g v).filter (fun a => decide (a ∈ r))).length

/-- Every occurrence of b in the list is preceded by an occurrence of a. -/
def precededBy (l : List String) (a b : String) : Prop :=
  ∀ i : Fin l.length, l.get i = b → ∃ j : Fin l.length, j.val < i.val ∧ l.get j = a

instance (l : List String) (a b : String) : Decidable (precededBy l a b) := by
  unfold precededBy
  infer_instance

/-- The ordering the claim asserts: x appears after y in the list. -/
def appearsAfter (l : List String) (x y : String) : Prop :=
  ∃ i j : Fin l.length, i.val < j.val ∧ l.get i = y ∧ l.get j = x

instance (l : List String) (x y : String) : Decidable (appearsAfter l x y) := by
  unfold appearsAfter
  infer_instance

/-- Concrete two-chain dependency graph: chain A jumps to chain B. -/
def gDep : Graph := [("A", ["B"]), ("B", [])]

/-- One-or-more-step reachability along the jump edges: the transitive
closure of `Edge`.  A directed cycle exists exactly when some node reaches
itself. -/
inductive ReachP (g : Graph) : String → String → Prop
  | single : ∀ {u v : String}, Edge g u v → ReachP g u v
  | tail : ∀ {u v w : String}, ReachP g u v → Edge g v w → ReachP g u w

/-- Every string that can ever be handed to the depth-first searches: the
keys of the graph together with every listed neighbor. -/
def nodeUniv (g : Graph) : List String := g.flatMap (fun e => e.1 :: e.2)

/-- How many universe nodes are still unvisited: the fuel measure of the
depth-first searches. -/
def cardRem (g : Graph) (vis : List String) : Nat :=
  ((nodeUniv g).dedup.filter (fun x => decide (x ∉ vis))).length

/-- `ChainManager::hasCycle`, recursive lambda `dfs` (chain_manager.cpp
346-367), merged with its neighbor loop: `dfs(node)` first inserts `node`
into both `visited` and `rec_stack` and then walks the neighbors; each
neighbor hitting `rec_stack` reports a cycle, a visited neighbor is
skipped, and a fresh neighbor is descended into, erasing the node from
`rec_stack` on a false return.  The pending-neighbor list is the first list
argument, so the body's per-neighbor guards become the head checks and the
insert-then-walk body becomes the descend branch.  C++ recursion depth is
bounded by the visited set; the explicit fuel models that, and exhausted
fuel conservatively reports `true` (soundness below therefore carries a
fuel-adequacy bound, completeness needs none). -/
def dfsAList (g : Graph) : Nat → List String → List String → List String →
    Bool × List String × List String
  | 0, _, vis, stk => (true, vis, stk)
  | _ + 1, [], vis, stk => (false, vis, stk)
  | fuel + 1, n :: rest, vis, stk =>
    if n ∈ stk then (true, vis, stk)
    else if n ∈ vis then dfsAList g fuel rest vis stk
    else
      let inner := dfsAList g fuel (nsOf g n) (n :: vis) (n :: stk)
      if inner.1 then (true, inner.2.1, inner.2.2)
      else dfsAList g fuel rest inner.2.1 (inner.2.2.erase n)

/-- The driver loop of `ChainManager::hasCycle` (chain_manager.cpp
369-378): walk the graph keys, start a depth-first search at every node
not yet visited, and report `true` as soon as one search finds a cycle. -/
def hasCycleLoop (g : Graph) (fuel : Nat) : List String → List String → List String → Bool
  | [], _, _ => false
  | n :: rest, vis, stk =>
    if n ∈ vis then hasCycleLoop g fuel rest vis stk
    else
      let r := dfsAList g fuel [n] vis stk
      if r.1 then true else hasCycleLoop g fuel rest r.2.1 r.2.2

/-- Enough fuel for every search the drivers start (proved in the fuel
bounds of the soundness lemmas). -/
def dfsFuel (g : Graph) : Nat :=
  (nodeUniv g).length * ((nodeUniv g).length + 1) + 2

/-- `ChainManager::hasCycle` (chain_manager.cpp 346-379) over an already
built dependency graph: empty visited and recursion-stack sets, then the
driver loop over the graph keys. -/
def hasCycle (g : Graph) : Bool :=
  hasCycleLoop g (dfsFuel g) (g.map Prod.fst) [] []

/-- `RuleValidator::hasCircularChainDependencies`, recursive lambda
`hasCycleDFS` (rule_validator.cpp 575-599), merged with its dependency
loop exactly as `dfsAList`: the entry checks against `visiting` (gray) and
`visited` (black) become the head checks of the pending list, the body
inserts the node into `visiting` alone, walks the dependencies, and on a
false return moves the node from `visiting` to `visited` — the post-order
variant of the same three-color search. -/
def vDfsList (g : Graph) : Nat → List String → List String → List String →
    Bool × List String × List String
  | 0, _, gray, black => (true, gray, black)
  | _ + 1, [], gray, black => (false, gray, black)
  | fuel + 1, n :: rest, gray, black =>
    if n ∈ gray then (true, gray, black)
    else if n ∈ black then vDfsList g fuel rest gray black
    else
      let inner := vDfsList g fuel (nsOf g n) (n :: gray) black
      if inner.1 then (true, inner.2.1, inner.2.2)
      else vDfsList g fuel rest (inner.2.1.erase n) (n :: inner.2.2)

/-- The driver loop of `hasCircularChainDependencies` (rule_validator.cpp
602-608): walk the defined chains — the keys of the dependency map — and
start a search at every chain not yet in `visited`. -/
def hasCircularLoop (g : Graph) (fuel : Nat) : List String → List String → List String → Bool
  | [], _, _ => false
  | n :: rest, gray, black =>
    if n ∈ black then hasCircularLoop g fuel rest gray black
    else
      let r := vDfsList g fuel [n] gray black
      if r.1 then true else hasCircularLoop g fuel rest r.2.1 r.2.2

/-- `RuleValidator::hasCircularChainDependencies` (rule_validator.cpp
497-611) with the dependency-map construction abstracted into the Graph
argument: its cycle check proper, driven over the defined chains. -/
def hasCircularChainDependencies (g : Graph) : Bool :=
  hasCircularLoop g (dfsFuel g) (g.map Prod.fst) [] []

-- ===== additional definitions are inserted above this marker =====

/-! ## Theorems -/

/-- C6: the claim states that a range string is accepted iff it has the form
lo-hi with both endpoints in [1,65535] and lo < hi, and in particular that
every endpoint above 65535 is rejected.  The source truncates the parsed
endpoints into `uint16_t` before checking the bounds (its own `> 65535`
comparison is dead code on that type), so "65537-65538" is accepted: the
endpoints wrap to 1 and 2.  The specification describes the evident intent of
the dead bound check; the truncation is the slip. -/
theorem c6_port_range_truncation_bug :
    isValidPortRange "65537-65538" = true ∧
      specPortRangeAccepts "65537-65538" = false := by
  exact ⟨by decide, by decide⟩

/-- Masking twice with the same mask gives the same result as masking once. -/
theorem land_land_self (x m : Nat) : (x &&& m) &&& m = x &&& m := by
  apply Nat.eq_of_testBit_eq
  intro i
  simp [Nat.testBit_land, Bool.and_assoc]

/-- A valid dotted quad packs into a 32-bit integer. -/
theorem rawIp_lt (x : Cidr) (h : x.Valid) : rawIp x < 4294967296 := by
  obtain ⟨ha, hb, hc, hd, _⟩ := h
  have hx : rawIp x = x.a * 16777216 + x.b * 65536 + x.c * 256 + x.d := by
    unfold rawIp; ring
  omega

/-- Masking a 32-bit value with UINT32_MAX is the identity. -/
theorem land_uint32Max (x : Nat) (h : x < 4294967296) : x &&& uint32Max = x := by
  apply Nat.eq_of_testBit_eq
  intro i
  rw [Nat.testBit_land]
  have hm : uint32Max = 2 ^ 32 - 1 := by norm_num [uint32Max]
  rw [hm, Nat.testBit_two_pow_sub_one]
  by_cases hi : i < 32
  · simp [hi]
  · have hfalse : x.testBit i = false := by
      apply Nat.testBit_lt_two_pow
      calc x < 4294967296 := h
        _ ≤ 2 ^ i := by
          have : (32 : Nat) ≤ i := Nat.le_of_not_lt hi
          calc (4294967296 : Nat) = 2 ^ 32 := by norm_num
            _ ≤ 2 ^ i := Nat.pow_le_pow_right (by norm_num) this
    simp [hfalse, hi]

/-- Valid prefixes are at most 32 (a bare address defaults to 32). -/
theorem cidrPfx_le (x : Cidr) (h : x.Valid) : cidrPfx x ≤ 32 := by
  obtain ⟨_, _, _, _, hp⟩ := h
  unfold cidrPfx
  cases hx : x.pfxLen with
  | none => simp
  | some p => simpa using hp p hx

/-- The network integer from parseCIDR is a fixed point of masking with the
mask that subnetContains builds for the same prefix. -/
theorem parseCIDRNet_mask (x : Cidr) (h : x.Valid) :
    parseCIDRNet x &&& maskOf (cidrPfx x) = parseCIDRNet x := by
  by_cases h0 : cidrPfx x = 0
  · have hm : maskOf (cidrPfx x) = 0 := by simp [maskOf, h0]
    have hn : parseCIDRNet x = 0 := by
      unfold parseCIDRNet
      rw [h0]
      norm_num [Nat.shiftLeft_eq]
    rw [hm, hn]
    rfl
  · by_cases hlt : cidrPfx x < 32
    · have hm : maskOf (cidrPfx x) = (uint32Max <<< (32 - cidrPfx x)) % 4294967296 := by
        simp [maskOf, h0]
      have hn : parseCIDRNet x = rawIp x &&& ((uint32Max <<< (32 - cidrPfx x)) % 4294967296) := by
        simp [parseCIDRNet, hlt]
      rw [hm, hn]
      exact land_land_self _ _
    · have h32 : cidrPfx x = 32 := Nat.le_antisymm (cidrPfx_le x h) (Nat.le_of_not_lt hlt)
      have hn : parseCIDRNet x = rawIp x := by simp [parseCIDRNet, hlt]
      have hm : maskOf (cidrPfx x) = uint32Max := by
        rw [h32]
        norm_num [maskOf, Nat.shiftLeft_eq, uint32Max]
      rw [hn, hm]
      exact land_uint32Max _ (rawIp_lt x h)

/-- C8: for valid CIDRs, `subnetContains A B` holds iff the prefix of A is at
most the prefix of B and the network of B masked with the mask of A equals the
network of A (networks being the parsed 32-bit addresses masked to their own
prefix, with prefix 0 meaning the all-zero mask).  Confirms the claim. -/
theorem c8_subnet_contains_iff (x y : Cidr) (hx : x.Valid) (_hy : y.Valid) :
    subnetContains x y = true ↔
      (cidrPfx x ≤ cidrPfx y ∧
        parseCIDRNet y &&& maskOf (cidrPfx x) = parseCIDRNet x) := by
  unfold subnetContains
  by_cases hp : cidrPfx x > cidrPfx y
  · have : ¬ cidrPfx x ≤ cidrPfx y := Nat.not_le_of_lt hp
    simp [hp, this]
  · have hle : cidrPfx x ≤ cidrPfx y := Nat.le_of_not_lt hp
    simp only [hp, if_false, beq_iff_eq, hle, true_and]
    rw [parseCIDRNet_mask x hx]
    exact eq_comm

/-- Witness instantiating the containment theorem at 10.0.0.0/8 and
10.1.0.0/16. -/
theorem c8_subnet_witness :
    cidrOuter.Valid ∧ cidrInner.Valid ∧
      (subnetContains cidrOuter cidrInner = true ↔
        (cidrPfx cidrOuter ≤ cidrPfx cidrInner ∧
          parseCIDRNet cidrInner &&& maskOf (cidrPfx cidrOuter) = parseCIDRNet cidrOuter)) :=
  ⟨by decide, by decide, c8_subnet_contains_iff cidrOuter cidrInner (by decide) (by decide)⟩

/-- C3 counterexample: two distinct typed rules that differ only in their
direction receive the same identifier comment, because
`Rule::buildYamlComment` encodes neither direction nor action nor subnets.
This refutes the claim that such rules receive distinct identifiers. -/
theorem c3_comment_collision_counterexample :
    TcpRule.getComment tcpRuleIn = TcpRule.getComment tcpRuleOut ∧
      decide (tcpRuleIn = tcpRuleOut) = false := by
  exact ⟨rfl, by decide⟩

/-- C3 amended: the identifier comment of a TcpRule is fully determined by
its section, port, forward port, target chain, interface pair, and source
MAC; two rules in the same section that differ only in their allow/action,
their direction, or their subnet list therefore receive the same identifier
string, not distinct ones. -/
theorem c3_comment_ignores_direction_action_subnets
    (r1 r2 : TcpRule)
    (hsec : r1.section_name = r2.section_name)
    (hport : r1.port = r2.port)
    (hfwd : r1.forward_port = r2.forward_port)
    (hchain : r1.target_chain = r2.target_chain)
    (hiface : r1.interface = r2.interface)
    (hmac : r1.mac_source = r2.mac_source) :
    TcpRule.getComment r1 = TcpRule.getComment r2 := by
  cases r1
  cases r2
  simp only at hsec hport hfwd hchain hiface hmac
  subst hsec hport hfwd hchain hiface hmac
  rfl

/-- Witness for the amended C3 statement: the two concrete rules differ in
subnets and action yet share every comment-relevant field, and the theorem
applies. -/
theorem c3_comment_witness :
    tcpRuleSubnetted.section_name = tcpRuleSubnetted2.section_name ∧
      TcpRule.getComment tcpRuleSubnetted = TcpRule.getComment tcpRuleSubnetted2 :=
  ⟨rfl, c3_comment_ignores_direction_action_subnets tcpRuleSubnetted tcpRuleSubnetted2
    rfl rfl rfl rfl rfl rfl⟩

/-- Once the superset checks pass, the action analysis of isRuleUnreachable
returns true for every combination of actions: the function is exactly the
superset test. -/
theorem isRuleUnreachable_eq_superset (a b : RuleSelectivity) :
    isRuleUnreachable a b = supersetMatches a b := by
  unfold isRuleUnreachable supersetMatches
  cases h1 : subnetDimCovers a b <;>
    cases h2 : optEqDimCovers a.port b.port <;>
      cases h3 : decide (a.protocol = b.protocol) <;>
        cases h4 : isInterfaceMoreSpecific b.input_interface a.input_interface <;>
          cases h5 : isInterfaceMoreSpecific b.output_interface a.output_interface <;>
            cases h6 : optEqDimCovers a.mac_source b.mac_source <;>
              cases h7 : a.allow <;> cases h8 : b.allow <;> simp

/-- C4 counterexample: the earlier and later rules have identical match sets
and the same action (both accept), so the claim requires a RedundantRule
warning; the validator instead emits an UnreachableRule warning and no
RedundantRule warning at all. -/
theorem c4_same_action_reported_unreachable :
    supersetMatches selRuleA selRuleB = true ∧
      selRuleA.allow = selRuleB.allow ∧
      (validateRuleOrder [selRuleA, selRuleB]).map ValidationWarning.wtype =
        [WarnType.UnreachableRule] := by
  exact ⟨by decide, by decide, by decide⟩

/-- C4 amended: whenever an earlier rule in append order covers a later rule
(the superset checks of isRuleUnreachable), the validator emits a warning of
kind UnreachableRule, whether the two actions agree or conflict; every
warning emitted by validateRuleOrder has kind UnreachableRule and no
RedundantRule warning is ever produced by it. -/
theorem c4_all_warnings_unreachable_kind (rules : List RuleSelectivity) :
    (∀ w ∈ validateRuleOrder rules, w.wtype = WarnType.UnreachableRule) ∧
      (∀ (i j : Nat) (a b : RuleSelectivity), j < i →
        rules[j]? = some a → rules[i]? = some b →
        supersetMatches a b = true →
        mkUnreachableWarning a b ∈ validateRuleOrder rules) := by
  constructor
  · intro w hw
    unfold validateRuleOrder at hw
    rw [List.mem_flatMap] at hw
    obtain ⟨i, _, hw⟩ := hw
    rw [List.mem_filterMap] at hw
    obtain ⟨j, _, hw⟩ := hw
    cases hj : rules[j]? with
    | none => rw [hj] at hw; exact absurd hw (by simp)
    | some earlier =>
      cases hi : rules[i]? with
      | none => rw [hj, hi] at hw; exact absurd hw (by simp)
      | some later =>
        rw [hj, hi] at hw
        by_cases hu : isRuleUnreachable earlier later = true
        · simp only [hu, if_true] at hw
          cases hw
          rfl
        · simp only [Bool.not_eq_true] at hu
          simp [hu] at hw
  · intro i j a b hji hj hi hsup
    have hi_len : i < rules.length := by
      have := List.getElem?_eq_some_iff.mp hi
      exact this.1
    unfold validateRuleOrder
    rw [List.mem_flatMap]
    refine ⟨i, List.mem_range.mpr hi_len, ?_⟩
    rw [List.mem_filterMap]
    refine ⟨j, List.mem_range.mpr hji, ?_⟩
    rw [hj, hi]
    simp [isRuleUnreachable_eq_superset, hsup]

/-- Witness for the amended C4 statement: the concrete same-action pair is
reported by the validator. -/
theorem c4_warning_witness :
    mkUnreachableWarning selRuleA selRuleB ∈ validateRuleOrder [selRuleA, selRuleB] :=
  (c4_all_warnings_unreachable_kind [selRuleA, selRuleB]).2 1 0 selRuleA selRuleB
    (by decide) (by decide) (by decide) (by decide)

/-- C5 counterexample: a port rule carrying two source subnets lowers to a
single append command whose `-s` argument is the comma-joined subnet list,
not to two otherwise-identical commands differing in `-s`. -/
theorem c5_single_command_counterexample :
    processPortConfigCommands portCfgTwoSubnets "web" =
      [["-A", "INPUT", "-s", "10.0.0.0/8,192.168.1.0/24", "-p", "tcp",
        "-m", "tcp", "--dport", "80",
        "-m", "comment", "--comment", "YAML:web:port:80:i:any:o:any:mac:any",
        "-j", "ACCEPT"]] ∧
      (processPortConfigCommands portCfgTwoSubnets "web").length = 1 := by
  exact ⟨by decide, by decide⟩

/-- C5 amended: a non-forwarding port rule carrying k ≥ 1 source subnets
lowers to exactly one append command, which carries the adjacent argument
pair `-s` followed by the comma-joined list of all k subnets.  (In the
`Rule::addSubnetArgs` path only the first subnet is emitted; in this path the
whole list is joined.  No per-subnet fan-out happens in either path.) -/
theorem c5_subnets_join_single_command (port : PortConfig) (sec : String)
    (l : List String) (hsub : port.subnet = some l) (hne : l ≠ [])
    (hfwd : port.forward = none) (hdesc : (portDescriptionOf port).isSome) :
    ∃ args, processPortConfigCommands port sec = [args] ∧
      List.IsInfix ["-s", String.intercalate "," l] args := by
  obtain ⟨d, hd⟩ := Option.isSome_iff_exists.mp hdesc
  have hempty : l.isEmpty = false := by
    cases l with
    | nil => exact absurd rfl hne
    | cons x xs => rfl
  have hsubargs : portRuleSubnetArgs port = ["-s", String.intercalate "," l] := by
    unfold portRuleSubnetArgs
    rw [hsub]
    dsimp only
    rw [hempty]
    rfl
  unfold processPortConfigCommands
  rw [hd, hfwd]
  dsimp only
  refine ⟨_, rfl, ?_⟩
  rw [hsubargs]
  have hinf := List.infix_append
    (["-A", directionChainName port.direction] ++ ifaceArgs port.interface ++
      macSrcArgs port.mac_source)
    ["-s", String.intercalate "," l]
    (["-p", protoString port.protocol] ++ portRulePortArgs port ++
      portRuleTailArgs port sec d)
  simpa [List.append_assoc] using hinf

/-- Witness instantiating the amended C5 statement at the two-subnet rule. -/
theorem c5_subnet_witness :
    portCfgTwoSubnets.subnet = some ["10.0.0.0/8", "192.168.1.0/24"] ∧
      (∃ args, processPortConfigCommands portCfgTwoSubnets "web" = [args] ∧
        List.IsInfix ["-s", String.intercalate "," ["10.0.0.0/8", "192.168.1.0/24"]] args) :=
  ⟨rfl, c5_subnets_join_single_command portCfgTwoSubnets "web"
    ["10.0.0.0/8", "192.168.1.0/24"] rfl (by decide) rfl (by decide)⟩

/-- C2: in a non-root, non-debug environment the probe does produce the
required diagnostics (UID report among them), but main.cpp discards the
returned vector - its comment asserts the function throws on failure, which
it never does - so the process reports "System validation passed." and
proceeds to the kernel-mutating phases instead of exiting with code 1. -/
theorem c2_validation_errors_discarded :
    validateSystemRequirements nonRootEnv =
      ["This application requires root privileges to modify iptables rules",
        "Debug: Current effective UID is 1000 (root UID is 0)",
        "Debug: Try running with sudo or as root user"] ∧
      mainValidationGate nonRootEnv = GateOutcome.proceed := by
  exact ⟨rfl, rfl⟩

/-- C10: every CommandResult produced by the executor satisfies
success = (exit_code == 0), on the empty-argument, popen-failure,
exit-code-parse-failure, exception, and normal paths alike. -/
theorem c10_success_iff_exit_zero :
    (∀ (args : List String) (w : InternalWorld),
      (executeArgs args w).success = ((executeArgs args w).exit_code == 0)) ∧
    (∀ (command : String) (w : StrWorld),
      (executeStr command w).success = ((executeStr command w).exit_code == 0)) ∧
    (∀ (command : String) (capture : Bool) (w : InternalWorld),
      (executeInternal command capture w).success =
        ((executeInternal command capture w).exit_code == 0)) := by
  have hint : ∀ (command : String) (capture : Bool) (w : InternalWorld),
      (executeInternal command capture w).success =
        ((executeInternal command capture w).exit_code == 0) := by
    intro command capture w
    unfold executeInternal
    cases capture with
    | false => rfl
    | true =>
      cases hp : w.pipeOk with
      | false => rfl
      | true => rfl
  refine ⟨?_, ?_, hint⟩
  · intro args w
    unfold executeArgs
    cases h : args.isEmpty with
    | true => rfl
    | false =>
      simp only [Bool.false_eq_true, if_false]
      exact hint _ _ _
  · intro command w
    unfold executeStr
    cases w.throwsMsg with
    | some msg => rfl
    | none =>
      cases hp : w.popenOk with
      | false => rfl
      | true => rfl

/-- Names surviving the listing parse are never built-in chain names. -/
theorem mem_listChainsParse_not_builtin (lines : List String) (n : String)
    (h : n ∈ listChainsParse lines) : builtinChains.contains n = false := by
  unfold listChainsParse at h
  rw [List.mem_filterMap] at h
  obtain ⟨line, _, hl⟩ := h
  cases hp : parseChainLine line with
  | none => rw [hp] at hl; cases hl
  | some name =>
    rw [hp] at hl
    dsimp only at hl
    cases hb : builtinChains.contains name with
    | true =>
      rw [hb] at hl
      simp at hl
    | false =>
      rw [hb] at hl
      simp at hl
      rw [← hl]
      exact hb

/-- The delete commands of a cleanup trace follow the given chain order,
restricted to the chains the listing reports as existing. -/
theorem deleteTargets_append (xs ys : List IptCmd) :
    deleteTargets (xs ++ ys) = deleteTargets xs ++ deleteTargets ys := by
  unfold deleteTargets
  rw [List.filterMap_append]

/-- The delete commands of a cleanup trace follow the given chain order,
restricted to the chains the listing reports as existing. -/
theorem deleteTargets_cleanup (chains lines : List String) :
    deleteTargets (cleanupChainsTrace chains lines) =
      chains.filter (fun n => chainExistsB lines n) := by
  induction chains with
  | nil => rfl
  | cons c rest ih =>
    have hstep : cleanupChainsTrace (c :: rest) lines =
        deleteChainTrace lines c ++ cleanupChainsTrace rest lines := by
      unfold cleanupChainsTrace
      rw [List.flatMap_cons]
    rw [hstep, deleteTargets_append, ih, List.filter_cons]
    by_cases hc : c = ""
    · subst hc
      have h1 : deleteChainTrace lines "" = [] := rfl
      have h2 : chainExistsB lines "" = false := rfl
      rw [h1, h2]
      simp [deleteTargets]
    · cases he : chainExistsB lines c with
      | true =>
        have h1 : deleteChainTrace lines c = [IptCmd.flush c, IptCmd.delete c] := by
          unfold deleteChainTrace
          rw [if_neg hc, he]
          simp
        have h2 : deleteTargets [IptCmd.flush c, IptCmd.delete c] = [c] := rfl
        rw [h1, h2]
        simp
      | false =>
        have h1 : deleteChainTrace lines c = [] := by
          unfold deleteChainTrace
          rw [if_neg hc, he]
          simp
        rw [h1]
        simp [deleteTargets]

/-- C9: no invocation of cleanupChains ever issues a flush or delete command
for a built-in chain, whatever chain list it walks (kernel listing or managed
set) and whatever the kernel listing contains: deleteChain only issues
commands for names that chainExists confirms, and the listing scan skips all
built-in names. -/
theorem c9_cleanup_never_deletes_builtin (chains lines : List String) (c : IptCmd)
    (hc : c ∈ cleanupChainsTrace chains lines) :
    builtinChains.contains c.chainOf = false := by
  unfold cleanupChainsTrace at hc
  rw [List.mem_flatMap] at hc
  obtain ⟨name, _, hcmd⟩ := hc
  unfold deleteChainTrace at hcmd
  by_cases h0 : name = ""
  · rw [if_pos h0] at hcmd
    cases hcmd
  · rw [if_neg h0] at hcmd
    cases he : chainExistsB lines name with
    | false => rw [he] at hcmd; cases hcmd
    | true =>
      rw [he] at hcmd
      have hmem : name ∈ listChainsParse lines := by
        unfold chainExistsB at he
        rw [if_neg h0] at he
        simpa using he
      have hnb := mem_listChainsParse_not_builtin lines name hmem
      have hof : c.chainOf = name := by
        have hor : c = IptCmd.flush name ∨ c = IptCmd.delete name := by
          simpa using hcmd
        rcases hor with h | h <;> rw [h] <;> rfl
      rw [hof]
      exact hnb

/-- Witness for C9: a cleanup over a one-chain kernel listing issues a delete
for that chain, whose target the theorem shows is not built-in. -/
theorem c9_cleanup_witness :
    IptCmd.delete "MYCHAIN" ∈
        cleanupChainsTrace ["MYCHAIN"] ["Chain MYCHAIN (0 references)"] ∧
      builtinChains.contains (IptCmd.chainOf (IptCmd.delete "MYCHAIN")) = false :=
  ⟨by decide,
    c9_cleanup_never_deletes_builtin ["MYCHAIN"] ["Chain MYCHAIN (0 references)"]
      (IptCmd.delete "MYCHAIN") (by decide)⟩

/-- Key presence agrees with membership in the key list. -/
theorem degHas_iff_mem (m : DegMap) (k : String) :
    degHas m k = true ↔ k ∈ m.map Prod.fst := by
  induction m with
  | nil => simp [degHas]
  | cons e rest ih =>
    unfold degHas
    by_cases h : e.1 = k
    · simp [h]
    · simp [h, ih, Ne.symm h]

/-- Lookup of an absent key yields the zero default. -/
theorem degGet_absent (m : DegMap) (k : String) (h : degHas m k = false) :
    degGet m k = 0 := by
  induction m with
  | nil => rfl
  | cons e rest ih =>
    unfold degHas at h
    unfold degGet
    by_cases he : e.1 = k
    · rw [if_pos he] at h
      cases h
    · rw [if_neg he] at h
      rw [if_neg he]
      exact ih h

/-- In-place update keeps the key list. -/
theorem degUpdate_keys (m : DegMap) (k : String) (v : Int) :
    (degUpdate m k v).map Prod.fst = m.map Prod.fst := by
  induction m with
  | nil => rfl
  | cons e rest ih =>
    unfold degUpdate
    by_cases he : e.1 = k
    · simp [he]
    · simp [he, ih]

/-- Lookup after in-place update of a present key. -/
theorem degGet_degUpdate (m : DegMap) (k : String) (v : Int) (x : String)
    (h : degHas m k = true) :
    degGet (degUpdate m k v) x = if x = k then v else degGet m x := by
  induction m with
  | nil => cases h
  | cons e rest ih =>
    unfold degHas at h
    unfold degUpdate
    by_cases he : e.1 = k
    · rw [if_pos he]
      by_cases hx : x = k
      · subst hx
        simp [degGet, he]
      · have hex : ¬ e.1 = x := by
          intro hh
          exact hx (by rw [← hh, he])
        simp [degGet, hex, hx]
    · rw [if_neg he]
      rw [if_neg he] at h
      by_cases hex : e.1 = x
      · have hx : ¬ x = k := by
          intro hh
          exact he (by rw [hex, hh])
        simp [degGet, hex, hx]
      · simp [degGet, hex, ih h]

/-- Membership in the key list after an ordered insertion. -/
theorem degInsert_keys_mem (m : DegMap) (k : String) (v : Int) (x : String) :
    x ∈ (degInsert m k v).map Prod.fst ↔ x = k ∨ x ∈ m.map Prod.fst := by
  induction m with
  | nil => simp [degInsert]
  | cons e rest ih =>
    unfold degInsert
    by_cases hlt : strLt k e.1 = true
    · simp [hlt]
    · simp only [Bool.not_eq_true] at hlt
      simp only [hlt, Bool.false_eq_true, if_false, List.map_cons, List.mem_cons, ih]
      tauto

/-- Ordered insertion of a fresh key keeps the key list duplicate free. -/
theorem degInsert_keys_nodup (m : DegMap) (k : String) (v : Int)
    (h : (m.map Prod.fst).Nodup) (hk : degHas m k = false) :
    ((degInsert m k v).map Prod.fst).Nodup := by
  induction m with
  | nil => simp [degInsert]
  | cons e rest ih =>
    unfold degHas at hk
    by_cases he : e.1 = k
    · rw [if_pos he] at hk
      cases hk
    · rw [if_neg he] at hk
      simp only [List.map_cons, List.nodup_cons] at h
      unfold degInsert
      by_cases hlt : strLt k e.1 = true
      · simp only [hlt, if_true, List.map_cons, List.nodup_cons]
        refine ⟨?_, h.1, h.2⟩
        simp only [List.mem_cons]
        rintro (hh | hh)
        · exact he hh.symm
        · rw [← degHas_iff_mem] at hh
          rw [hh] at hk
          cases hk
      · simp only [Bool.not_eq_true] at hlt
        simp only [hlt, Bool.false_eq_true, if_false, List.map_cons, List.nodup_cons]
        refine ⟨?_, ih h.2 hk⟩
        rw [degInsert_keys_mem]
        rintro (hh | hh)
        · exact he hh
        · exact h.1 hh

/-- Lookup after ordered insertion of a fresh key. -/
theorem degGet_degInsert (m : DegMap) (k : String) (v : Int) (x : String)
    (hk : degHas m k = false) :
    degGet (degInsert m k v) x = if x = k then v else degGet m x := by
  induction m with
  | nil =>
    by_cases hx : x = k
    · subst hx
      simp [degInsert, degGet]
    · have : ¬ k = x := fun hh => hx hh.symm
      simp [degInsert, degGet, hx, this]
  | cons e rest ih =>
    unfold degHas at hk
    by_cases he : e.1 = k
    · rw [if_pos he] at hk
      cases hk
    · rw [if_neg he] at hk
      unfold degInsert
      by_cases hlt : strLt k e.1 = true
      · simp only [hlt, if_true]
        by_cases hx : x = k
        · subst hx
          simp [degGet]
        · have : ¬ k = x := fun hh => hx hh.symm
          simp [degGet, hx, this]
      · simp only [Bool.not_eq_true] at hlt
        simp only [hlt, Bool.false_eq_true, if_false]
        by_cases hex : e.1 = x
        · have hx : ¬ x = k := by
            intro hh
            exact he (by rw [hex, hh])
          simp [degGet, hex, hx]
        · simp [degGet, hex, ih hk]

/-- The std::map increment: lookup after `degAdd`. -/
theorem degAdd_get (m : DegMap) (k : String) (delta : Int) (x : String) :
    degGet (degAdd m k delta) x = if x = k then degGet m k + delta else degGet m x := by
  unfold degAdd
  cases h : degHas m k with
  | true =>
    rw [if_pos rfl]
    exact degGet_degUpdate m k _ x h
  | false =>
    simp only [Bool.false_eq_true, if_false]
    rw [degGet_degInsert m k delta x h]
    by_cases hx : x = k
    · rw [if_pos hx, if_pos hx, degGet_absent m k h]
      omega
    · rw [if_neg hx, if_neg hx]

/-- The increment keeps the key list duplicate free. -/
theorem degAdd_keys_nodup (m : DegMap) (k : String) (delta : Int)
    (h : (m.map Prod.fst).Nodup) : ((degAdd m k delta).map Prod.fst).Nodup := by
  unfold degAdd
  cases hk : degHas m k with
  | true =>
    rw [if_pos rfl, degUpdate_keys]
    exact h
  | false =>
    simp only [Bool.false_eq_true, if_false]
    exact degInsert_keys_nodup m k delta h hk

/-- The std::map assignment: lookup after `degSet`. -/
theorem degSet_get (m : DegMap) (k : String) (v : Int) (x : String) :
    degGet (degSet m k v) x = if x = k then v else degGet m x := by
  unfold degSet
  cases h : degHas m k with
  | true =>
    rw [if_pos rfl]
    exact degGet_degUpdate m k v x h
  | false =>
    simp only [Bool.false_eq_true, if_false]
    exact degGet_degInsert m k v x h

/-- The assignment keeps the key list duplicate free. -/
theorem degSet_keys_nodup (m : DegMap) (k : String) (v : Int)
    (h : (m.map Prod.fst).Nodup) : ((degSet m k v).map Prod.fst).Nodup := by
  unfold degSet
  cases hk : degHas m k with
  | true =>
    rw [if_pos rfl, degUpdate_keys]
    exact h
  | false =>
    simp only [Bool.false_eq_true, if_false]
    exact degInsert_keys_nodup m k v h hk

/-- The map component of a decAll step over a cons. -/
theorem decAll_fst (m : DegMap) (n : String) (rest : List String) :
    (decAll m (n :: rest)).1 = (decAll (degAdd m n (-1)) rest).1 := by
  show (if degGet (degAdd m n (-1)) n == 0 then
          ((decAll (degAdd m n (-1)) rest).1, n :: (decAll (degAdd m n (-1)) rest).2)
        else decAll (degAdd m n (-1)) rest).1 = (decAll (degAdd m n (-1)) rest).1
  split <;> rfl

/-- The pushed component of a decAll step over a cons. -/
theorem decAll_cons_snd (m : DegMap) (n : String) (rest : List String) :
    (decAll m (n :: rest)).2 =
      if degGet (degAdd m n (-1)) n == 0
      then n :: (decAll (degAdd m n (-1)) rest).2
      else (decAll (degAdd m n (-1)) rest).2 := by
  show (if degGet (degAdd m n (-1)) n == 0 then
          ((decAll (degAdd m n (-1)) rest).1, n :: (decAll (degAdd m n (-1)) rest).2)
        else decAll (degAdd m n (-1)) rest).2 = _
  split <;> rfl

/-- Each neighbor in the batch is decremented exactly once. -/
theorem decAll_get (m : DegMap) (ns : List String) (x : String) (hns : ns.Nodup) :
    degGet (decAll m ns).1 x = degGet m x - (if x ∈ ns then 1 else 0) := by
  induction ns generalizing m with
  | nil => simp [decAll]
  | cons n rest ih =>
    rw [decAll_fst]
    simp only [List.nodup_cons] at hns
    rw [ih _ hns.2, degAdd_get]
    by_cases hx : x = n
    · subst hx
      have hxr : x ∉ rest := hns.1
      simp only [if_pos rfl, hxr, if_false, List.mem_cons, true_or, if_true]
      omega
    · rw [if_neg hx]
      simp [List.mem_cons, hx]

/-- The batch keeps the key list duplicate free. -/
theorem decAll_keys_nodup (m : DegMap) (ns : List String)
    (h : (m.map Prod.fst).Nodup) : (((decAll m ns).1).map Prod.fst).Nodup := by
  induction ns generalizing m with
  | nil => exact h
  | cons n rest ih =>
    rw [decAll_fst]
    exact ih _ (degAdd_keys_nodup m n (-1) h)

/-- A node is pushed by a batch exactly when it is one of the decremented
neighbors and its counter stood at one. -/
theorem decAll_pushed_mem (m : DegMap) (ns : List String) (x : String) (hns : ns.Nodup) :
    x ∈ (decAll m ns).2 ↔ x ∈ ns ∧ degGet m x = 1 := by
  induction ns generalizing m with
  | nil => simp [decAll]
  | cons n rest ih =>
    simp only [List.nodup_cons] at hns
    have hn2 : degGet (degAdd m n (-1)) n = degGet m n - 1 := by
      rw [degAdd_get, if_pos rfl]
      omega
    have hrest : ∀ y, y ∈ rest → degGet (degAdd m n (-1)) y = degGet m y := by
      intro y hy
      rw [degAdd_get]
      have : ¬ y = n := fun hh => hns.1 (hh ▸ hy)
      simp [this]
    rw [decAll_cons_snd]
    cases hc : degGet (degAdd m n (-1)) n == 0 with
    | true =>
      have hc1 : degGet m n = 1 := by
        have := beq_iff_eq.mp hc
        omega
      simp only [if_pos rfl]
      constructor
      · intro hx
        rcases List.mem_cons.mp hx with hx | hx
        · subst hx
          exact ⟨List.mem_cons_self _ _, hc1⟩
        · have := (ih (degAdd m n (-1)) hns.2).mp hx
          refine ⟨List.mem_cons_of_mem _ this.1, ?_⟩
          rw [← hrest x this.1]
          exact this.2
      · rintro ⟨hx, hv⟩
        rcases List.mem_cons.mp hx with hx | hx
        · subst hx
          exact List.mem_cons_self _ _
        · refine List.mem_cons_of_mem _ ((ih (degAdd m n (-1)) hns.2).mpr ⟨hx, ?_⟩)
          rw [hrest x hx]
          exact hv
    | false =>
      have hc1 : ¬ degGet m n = 1 := by
        intro hh
        rw [hn2, hh] at hc
        simp at hc
      simp only [Bool.false_eq_true, if_false]
      rw [ih (degAdd m n (-1)) hns.2]
      constructor
      · rintro ⟨hx, hv⟩
        refine ⟨List.mem_cons_of_mem _ hx, ?_⟩
        rw [← hrest x hx]
        exact hv
      · rintro ⟨hx, hv⟩
        rcases List.mem_cons.mp hx with hx | hx
        · subst hx
          exact absurd hv hc1
        · refine ⟨hx, ?_⟩
          rw [hrest x hx]
          exact hv

/-- The pushed nodes of a batch are pairwise distinct. -/
theorem decAll_pushed_nodup (m : DegMap) (ns : List String) (hns : ns.Nodup) :
    (decAll m ns).2.Nodup := by
  induction ns generalizing m with
  | nil => simp [decAll]
  | cons n rest ih =>
    simp only [List.nodup_cons] at hns
    rw [decAll_cons_snd]
    cases hc : degGet (degAdd m n (-1)) n == 0 with
    | true =>
      rw [if_pos rfl, List.nodup_cons]
      refine ⟨?_, ih _ hns.2⟩
      intro hmem
      have := (decAll_pushed_mem _ _ _ hns.2).mp hmem
      exact hns.1 this.1
    | false =>
      simp only [Bool.false_eq_true, if_false]
      exact ih _ hns.2

/-- The source list of a node is duplicate free when the graph keys are. -/
theorem sourcesOf_nodup (g : Graph) (v : String) (hk : (g.map Prod.fst).Nodup) :
    (sourcesOf g v).Nodup := by
  unfold sourcesOf
  exact hk.sublist ((List.filter_sublist g).map Prod.fst)

/-- With duplicate-free keys, find? on a key returns the unique entry. -/
theorem find?_eq_of_mem_nodup (g : Graph) (e : String × List String)
    (hk : (g.map Prod.fst).Nodup) (he : e ∈ g) :
    g.find? (fun x => x.1 = e.1) = some e := by
  induction g with
  | nil => cases he
  | cons f rest ih =>
    simp only [List.map_cons, List.nodup_cons] at hk
    by_cases hf : f.1 = e.1
    · have hfe : f = e := by
        rcases List.mem_cons.mp he with h | h
        · exact h.symm
        · exfalso
          exact hk.1 (hf ▸ List.mem_map.mpr ⟨e, h, rfl⟩)
      simp [List.find?, hf, hfe]
    · have hee : e ∈ rest := by
        rcases List.mem_cons.mp he with h | h
        · exact absurd (by rw [h]) hf
        · exact h
      simp [List.find?, hf]
      exact ih hk.2 hee

/-- Membership in the source list coincides with the edge relation when the
graph keys are duplicate free. -/
theorem mem_sourcesOf (g : Graph) (hk : (g.map Prod.fst).Nodup) (a v : String) :
    a ∈ sourcesOf g v ↔ Edge g a v := by
  unfold sourcesOf Edge nsOf
  constructor
  · intro h
    rw [List.mem_map] at h
    obtain ⟨e, he, hfst⟩ := h
    rw [List.mem_filter] at he
    rw [← hfst]
    rw [find?_eq_of_mem_nodup g e hk he.1]
    exact of_decide_eq_true he.2
  · intro h
    cases hf : g.find? (fun x => x.1 = a) with
    | none =>
      rw [hf] at h
      cases h
    | some e =>
      rw [hf] at h
      have he : e ∈ g := List.mem_of_find?_eq_some hf
      have hpred : e.1 = a := by
        have hps := List.find?_some hf
        simpa using hps
      rw [List.mem_map]
      exact ⟨e, List.mem_filter.mpr ⟨he, decide_eq_true h⟩, hpred⟩

/-- Count of an element in a duplicate-free list. -/
theorem count_eq_ite_of_nodup (l : List String) (v : String) (h : l.Nodup) :
    l.count v = if v ∈ l then 1 else 0 := by
  induction l with
  | nil => rfl
  | cons a t ih =>
    simp only [List.nodup_cons] at h
    rw [List.count_cons, ih h.2]
    by_cases hv : v = a
    · subst hv
      simp [h.1]
    · have hav : ¬ a = v := fun hh => hv hh.symm
      simp [hv, hav, List.mem_cons]

/-- The inner increment fold adds the neighbor multiplicity. -/
theorem foldl_degAdd_get (l : List String) (m : DegMap) (v : String) :
    degGet (l.foldl (fun acc n => degAdd acc n 1) m) v =
      degGet m v + (l.count v : Int) := by
  induction l generalizing m with
  | nil => simp
  | cons n t ih =>
    rw [List.foldl_cons, ih, degAdd_get, List.count_cons]
    by_cases hv : v = n
    · subst hv
      simp
      omega
    · have h1 : (v == n) = false := by
        simp [hv]
      have h2 : ¬ n = v := fun hh => hv hh.symm
      simp [hv, h1, h2]

/-- The zeroing fold yields the all-zero map. -/
theorem foldl_degSet_zero_get (l : Graph) (m : DegMap) (v : String)
    (h : ∀ x, degGet m x = 0) :
    degGet (l.foldl (fun acc e => degSet acc e.1 0) m) v = 0 := by
  induction l generalizing m with
  | nil => exact h v
  | cons e rest ih =>
    rw [List.foldl_cons]
    refine ih _ ?_
    intro x
    rw [degSet_get]
    by_cases hx : x = e.1
    · simp [hx]
    · simp [hx, h x]

/-- The increment folds add the total flattened neighbor count. -/
theorem foldl_inc_get (l : Graph) (m : DegMap) (v : String) :
    degGet (l.foldl (fun acc e => e.2.foldl (fun m2 n => degAdd m2 n 1) acc) m) v =
      degGet m v + ((l.flatMap Prod.snd).count v : Int) := by
  induction l generalizing m with
  | nil => simp
  | cons e rest ih =>
    rw [List.foldl_cons, ih, foldl_degAdd_get, List.flatMap_cons, List.count_append]
    push_cast
    ring

/-- The zeroing fold preserves duplicate-free keys. -/
theorem foldl_degSet_keys_nodup (l : Graph) (m : DegMap)
    (h : (m.map Prod.fst).Nodup) :
    ((l.foldl (fun acc e => degSet acc e.1 0) m).map Prod.fst).Nodup := by
  induction l generalizing m with
  | nil => exact h
  | cons e rest ih =>
    rw [List.foldl_cons]
    exact ih _ (degSet_keys_nodup m e.1 0 h)

/-- The increment folds preserve duplicate-free keys. -/
theorem foldl_inc_keys_nodup (l : Graph) (m : DegMap)
    (h : (m.map Prod.fst).Nodup) :
    ((l.foldl (fun acc e => e.2.foldl (fun m2 n => degAdd m2 n 1) acc) m).map Prod.fst).Nodup := by
  induction l generalizing m with
  | nil => exact h
  | cons e rest ih =>
    rw [List.foldl_cons]
    refine ih _ ?_
    have hinner : ∀ (ns : List String) (m2 : DegMap), (m2.map Prod.fst).Nodup →
        ((ns.foldl (fun acc n => degAdd acc n 1) m2).map Prod.fst).Nodup := by
      intro ns
      induction ns with
      | nil => intro m2 hm2; exact hm2
      | cons n t iht =>
        intro m2 hm2
        rw [List.foldl_cons]
        exact iht _ (degAdd_keys_nodup m2 n 1 hm2)
    exact hinner e.2 m h

/-- The key list of the built in-degree map is duplicate free. -/
theorem buildInDegree_keys_nodup (g : Graph) :
    ((buildInDegree g).map Prod.fst).Nodup := by
  unfold buildInDegree
  exact foldl_inc_keys_nodup g _ (foldl_degSet_keys_nodup g [] (by simp))

/-- Flattened neighbor count equals the source-list length when every
neighbor set is duplicate free. -/
theorem flatMap_count_eq_sources_length (g : Graph) (v : String)
    (hns : ∀ e ∈ g, e.2.Nodup) :
    (g.flatMap Prod.snd).count v = (sourcesOf g v).length := by
  induction g with
  | nil => rfl
  | cons e rest ih =>
    rw [List.flatMap_cons, List.count_append]
    have hcount : e.2.count v = if v ∈ e.2 then 1 else 0 :=
      count_eq_ite_of_nodup e.2 v (hns e (List.mem_cons_self _ _))
    have hrest := ih (fun f hf => hns f (List.mem_cons_of_mem _ hf))
    unfold sourcesOf
    rw [List.filter_cons]
    by_cases hv : v ∈ e.2
    · rw [if_pos (decide_eq_true hv)]
      rw [hcount, if_pos hv]
      unfold sourcesOf at hrest
      simp only [List.map_cons, List.length_cons]
      omega
    · rw [if_neg (by simp [hv])]
      rw [hcount, if_neg hv]
      unfold sourcesOf at hrest
      omega

/-- Lookup in the built in-degree map is the full in-degree. -/
theorem buildInDegree_get (g : Graph) (v : String)
    (hns : ∀ e ∈ g, e.2.Nodup) :
    degGet (buildInDegree g) v = ((sourcesOf g v).length : Int) := by
  unfold buildInDegree
  rw [foldl_inc_get, foldl_degSet_zero_get g [] v (fun _ => rfl),
    flatMap_count_eq_sources_length g v hns]
  omega

/-- A filter that keeps the whole length keeps every element. -/
theorem filter_length_eq_all {α : Type} (l : List α) (p : α → Bool)
    (h : (l.filter p).length = l.length) : ∀ x ∈ l, p x = true :=
  List.filter_length_eq_length.mp h

/-- Appending one fresh element to the membership list grows the filter
count by one exactly when that element occurs in the filtered list. -/
theorem length_filter_mem_snoc (l : List String) (r : List String) (c : String)
    (hl : l.Nodup) (hc : c ∉ r) :
    (l.filter (fun a => decide (a ∈ r ++ [c]))).length =
      (l.filter (fun a => decide (a ∈ r))).length + (if c ∈ l then 1 else 0) := by
  induction l with
  | nil => simp
  | cons a t ih =>
    simp only [List.nodup_cons] at hl
    rw [List.filter_cons, List.filter_cons]
    by_cases hac : a = c
    · subst hac
      rw [if_pos (decide_eq_true (by simp : a ∈ r ++ [a]))]
      rw [if_neg (by simp [hc])]
      rw [if_pos (List.mem_cons_self _ _)]
      simp only [List.length_cons]
      rw [ih hl.2, if_neg hl.1]
    · have hmemc : (a ∈ r ++ [c]) ↔ a ∈ r := by
        simp [List.mem_append, hac]
      have hct : (c ∈ a :: t) ↔ c ∈ t := by
        constructor
        · intro h
          rcases List.mem_cons.mp h with h | h
          · exact absurd h.symm hac
          · exact h
        · exact List.mem_cons_of_mem a
      by_cases har : a ∈ r
      · rw [if_pos (decide_eq_true (hmemc.mpr har)), if_pos (decide_eq_true har)]
        simp only [List.length_cons]
        rw [ih hl.2]
        by_cases hcc : c ∈ t
        · rw [if_pos hcc, if_pos (hct.mpr hcc)]
        · rw [if_neg hcc, if_neg (fun hh => hcc (hct.mp hh))]
      · rw [if_neg (by simp [hmemc, har]), if_neg (by simp [har])]
        rw [ih hl.2]
        by_cases hcc : c ∈ t
        · rw [if_pos hcc, if_pos (hct.mpr hcc)]
        · rw [if_neg hcc, if_neg (fun hh => hcc (hct.mp hh))]

/-- Appending one new result entry bumps the source count of v exactly when
the entry is a source of v. -/
theorem srcCount_snoc (g : Graph) (r : List String) (v c : String)
    (hk : (g.map Prod.fst).Nodup) (hc : c ∉ r) :
    srcCount g (r ++ [c]) v = srcCount g r v + (if c ∈ sourcesOf g v then 1 else 0) := by
  unfold srcCount
  exact length_filter_mem_snoc (sourcesOf g v) r c (sourcesOf_nodup g v hk) hc

/-- The source count never exceeds the number of sources. -/
theorem srcCount_le (g : Graph) (r : List String) (v : String) :
    srcCount g r v ≤ (sourcesOf g v).length :=
  List.length_filter_le _ _

/-- A full source count puts every source inside the result list. -/
theorem srcCount_full (g : Graph) (r : List String) (v : String)
    (h : srcCount g r v = (sourcesOf g v).length) :
    ∀ s ∈ sourcesOf g v, s ∈ r := by
  intro s hs
  exact of_decide_eq_true (filter_length_eq_all _ _ h s hs)

/-- Nothing is preceded in the empty list. -/
theorem precededBy_nil (a b : String) : precededBy [] a b := by
  intro i
  exact absurd i.isLt (by simp)

/-- Appending an element preserves precededBy provided the appended element,
when it equals b, already has a in the prefix. -/
theorem precededBy_snoc (r : List String) (c a b : String)
    (h1 : precededBy r a b) (h2 : b = c → a ∈ r) :
    precededBy (r ++ [c]) a b := by
  intro i hib
  by_cases hi : i.val < r.length
  · have hgi : (r ++ [c]).get i = r.get ⟨i.val, hi⟩ := by
      rw [List.get_eq_getElem, List.get_eq_getElem]
      exact List.getElem_append_left hi
    obtain ⟨j, hjlt, hja⟩ := h1 ⟨i.val, hi⟩ (by rw [← hgi]; exact hib)
    have hjlen : j.val < (r ++ [c]).length := by
      simp only [List.length_append, List.length_singleton]
      omega
    refine ⟨⟨j.val, hjlen⟩, hjlt, ?_⟩
    rw [List.get_eq_getElem, List.getElem_append_left j.isLt]
    rw [List.get_eq_getElem] at hja
    exact hja
  · have hie : i.val = r.length := by
      have := i.isLt
      simp only [List.length_append, List.length_singleton] at this
      omega
    have hgc : (r ++ [c]).get i = c := by
      rw [List.get_eq_getElem]
      rw [List.getElem_append_right (by omega)]
      simp [hie]
    have hbc : b = c := by
      rw [← hib, hgc]
    obtain ⟨n, hn⟩ := List.mem_iff_get.mp (h2 hbc)
    have hnlen : n.val < (r ++ [c]).length := by
      have := n.isLt
      simp only [List.length_append, List.length_singleton]
      omega
    refine ⟨⟨n.val, hnlen⟩, by rw [hie]; exact n.isLt, ?_⟩
    rw [List.get_eq_getElem, List.getElem_append_left n.isLt]
    rw [List.get_eq_getElem] at hn
    exact hn

/-- The neighbor set of any node is duplicate free when every neighbor set
in the graph is. -/
theorem nsOf_nodup (g : Graph) (u : String) (hgns : ∀ e ∈ g, e.2.Nodup) :
    (nsOf g u).Nodup := by
  unfold nsOf
  cases hf : g.find? (fun e => e.1 = u) with
  | none => simp
  | some e => exact hgns e (List.mem_of_find?_eq_some hf)

/-- With duplicate-free keys, looking up the key of a present entry yields
its stored value. -/
theorem degGet_of_mem_nodup (m : DegMap) (e : String × Int)
    (hk : (m.map Prod.fst).Nodup) (he : e ∈ m) : degGet m e.1 = e.2 := by
  induction m with
  | nil => cases he
  | cons f rest ih =>
    simp only [List.map_cons, List.nodup_cons] at hk
    unfold degGet
    by_cases hf : f.1 = e.1
    · have hfe : f = e := by
        rcases List.mem_cons.mp he with h | h
        · exact h.symm
        · exfalso
          exact hk.1 (hf ▸ List.mem_map.mpr ⟨e, h, rfl⟩)
      rw [if_pos hf, hfe]
    · rw [if_neg hf]
      rcases List.mem_cons.mp he with h | h
      · exact absurd (by rw [h]) hf
      · exact ih hk.2 h

/-- The source count over the empty result is zero. -/
theorem srcCount_nil (g : Graph) (v : String) : srcCount g [] v = 0 := by
  simp [srcCount]

/-- When every source lies in the result, the source count is full. -/
theorem srcCount_of_subset (g : Graph) (r : List String) (v : String)
    (h : ∀ s ∈ sourcesOf g v, s ∈ r) :
    srcCount g r v = (sourcesOf g v).length := by
  unfold srcCount
  exact List.filter_length_eq_length.mpr (fun a ha => decide_eq_true (h a ha))

/-- Kahn loop invariant: given a well-formed state whose in-degree map counts
the sources not yet emitted, whose queue holds exactly rediscovered zero-degree
nodes, and whose already-emitted list is source-closed and edge-ordered, every
further run of the loop keeps each edge's source in front of its target. -/
theorem kahnRun_precededBy (g : Graph)
    (hgk : (g.map Prod.fst).Nodup) (hgns : ∀ e ∈ g, e.2.Nodup) :
    ∀ (fuel : Nat) (queue : List String) (m : DegMap) (result : List String),
    (m.map Prod.fst).Nodup →
    (∀ v, degGet m v = ((sourcesOf g v).length : Int) - (srcCount g result v : Int)) →
    (∀ q ∈ queue, degGet m q = 0) →
    queue.Nodup →
    (∀ q ∈ queue, q ∉ result) →
    (∀ v ∈ result, ∀ s ∈ sourcesOf g v, s ∈ result) →
    (∀ a b, Edge g a b → precededBy result a b) →
    ∀ a b, Edge g a b → precededBy (kahnRun fuel g queue m result) a b := by
  intro fuel
  induction fuel with
  | zero =>
    intro queue m result _ _ _ _ _ _ horder a b hab
    cases queue with
    | nil => exact horder a b hab
    | cons current rest => exact horder a b hab
  | succ fuel ih =>
    intro queue m result hkeys hdeg hq0 hqn hqd hres horder a b hab
    cases queue with
    | nil => exact horder a b hab
    | cons current rest =>
      have hcur0 : degGet m current = 0 := hq0 current (List.mem_cons_self _ _)
      have hcurnr : current ∉ result := hqd current (List.mem_cons_self _ _)
      have hqrest : rest.Nodup := (List.nodup_cons.mp hqn).2
      have hcurrest : current ∉ rest := (List.nodup_cons.mp hqn).1
      have hzero_sub : ∀ v, degGet m v = 0 → ∀ s ∈ sourcesOf g v, s ∈ result := by
        intro v hv
        have hcnt : srcCount g result v = (sourcesOf g v).length := by
          have hd := hdeg v
          have hle := srcCount_le g result v
          omega
        exact srcCount_full g result v hcnt
      have hsrcfull : ∀ s ∈ sourcesOf g current, s ∈ result := hzero_sub current hcur0
      have hnsnd : (nsOf g current).Nodup := nsOf_nodup g current hgns
      have hiff : ∀ v, v ∈ nsOf g current ↔ current ∈ sourcesOf g v := by
        intro v
        exact Iff.symm (mem_sourcesOf g hgk current v)
      have hstep : kahnRun (fuel + 1) g (current :: rest) m result =
          kahnRun fuel g (rest ++ (decAll m (nsOf g current)).2)
            (decAll m (nsOf g current)).1 (result ++ [current]) := rfl
      rw [hstep]
      have hget : ∀ v, degGet (decAll m (nsOf g current)).1 v =
          degGet m v - (if v ∈ nsOf g current then 1 else 0) := fun v =>
        decAll_get m (nsOf g current) v hnsnd
      have hpush : ∀ x, x ∈ (decAll m (nsOf g current)).2 ↔
          x ∈ nsOf g current ∧ degGet m x = 1 := fun x =>
        decAll_pushed_mem m (nsOf g current) x hnsnd
      refine ih (rest ++ (decAll m (nsOf g current)).2) (decAll m (nsOf g current)).1
        (result ++ [current]) (decAll_keys_nodup m _ hkeys) ?_ ?_ ?_ ?_ ?_ ?_ a b hab
      · intro v
        rw [hget v, srcCount_snoc g result v current hgk hcurnr, hdeg v]
        by_cases hv : v ∈ nsOf g current
        · rw [if_pos hv, if_pos ((hiff v).mp hv)]
          push_cast
          ring
        · rw [if_neg hv, if_neg (fun hh => hv ((hiff v).mpr hh))]
          push_cast
          ring
      · intro q hqmem
        rcases List.mem_append.mp hqmem with hq | hq
        · have hq0q : degGet m q = 0 := hq0 q (List.mem_cons_of_mem _ hq)
          have hnot : q ∉ nsOf g current := by
            intro hmem
            exact hcurnr (hzero_sub q hq0q current ((hiff q).mp hmem))
          rw [hget q, if_neg hnot, hq0q]
          omega
        · have hp := (hpush q).mp hq
          rw [hget q, if_pos hp.1, hp.2]
          omega
      · refine List.Nodup.append hqrest (decAll_pushed_nodup m _ hnsnd) ?_
        intro x hx hx2
        have h1 : degGet m x = 0 := hq0 x (List.mem_cons_of_mem _ hx)
        have h2 := ((hpush x).mp hx2).2
        omega
      · intro q hqmem
        rcases List.mem_append.mp hqmem with hq | hq
        · intro hmem
          rcases List.mem_append.mp hmem with hm | hm
          · exact hqd q (List.mem_cons_of_mem _ hq) hm
          · have hqc : q = current := by simpa using hm
            exact hcurrest (hqc ▸ hq)
        · have hp := (hpush q).mp hq
          intro hmem
          rcases List.mem_append.mp hmem with hm | hm
          · have hfull : srcCount g result q = (sourcesOf g q).length :=
              srcCount_of_subset g result q (hres q hm)
            have hd := hdeg q
            rw [hp.2] at hd
            omega
          · have hqc : q = current := by simpa using hm
            rw [hqc, hcur0] at hp
            exact absurd hp.2 (by omega)
      · intro v hv s hs
        rcases List.mem_append.mp hv with hm | hm
        · exact List.mem_append_left _ (hres v hm s hs)
        · have hvc : v = current := by simpa using hm
          exact List.mem_append_left _ (hsrcfull s (hvc ▸ hs))
      · intro x y hxy
        refine precededBy_snoc result current x y (horder x y hxy) ?_
        intro hyc
        subst hyc
        exact hsrcfull x ((mem_sourcesOf g hgk x y).mpr hxy)

/-- C1 (amended): for every edge (a, b) of the dependency graph — chain a
jumps to chain b — the creation order emitted by topologicalSort places a
BEFORE b wherever b appears: in-degree-zero nodes (the jump sources) are
dequeued first, so dependents are created before the chains they jump to,
the opposite of the claimed dependencies-first order. -/
theorem c1_dependents_emitted_before_dependencies (g : Graph)
    (hgk : (g.map Prod.fst).Nodup) (hgns : ∀ e ∈ g, e.2.Nodup)
    (a b : String) (hab : Edge g a b) :
    precededBy (topologicalSort g) a b := by
  show precededBy
    (kahnRun ((buildInDegree g).length + degSum (buildInDegree g) + 1) g
      (((buildInDegree g).filter (fun e => e.2 == 0)).map Prod.fst)
      (buildInDegree g) []) a b
  have hkeys : ((buildInDegree g).map Prod.fst).Nodup := buildInDegree_keys_nodup g
  refine kahnRun_precededBy g hgk hgns _ _ _ _ hkeys ?_ ?_ ?_ ?_ ?_ ?_ a b hab
  · intro v
    rw [buildInDegree_get g v hgns, srcCount_nil]
    omega
  · intro q hq
    obtain ⟨e, hef, he1⟩ := List.mem_map.mp hq
    have hmem := List.mem_filter.mp hef
    have he2 : e.2 = 0 := by simpa using hmem.2
    rw [← he1, degGet_of_mem_nodup (buildInDegree g) e hkeys hmem.1, he2]
  · exact hkeys.sublist ((List.filter_sublist (buildInDegree g)).map Prod.fst)
  · intro q _ hmem
    cases hmem
  · intro v hv
    cases hv
  · intro x y _
    exact precededBy_nil x y

/-- C1 counterexample: in the two-chain graph where A jumps to B, the edge
(A, B) exists yet the emitted creation order is A then B, so A does NOT
appear after B as the claim requires. -/
theorem c1_creation_order_counterexample :
    Edge gDep "A" "B" ∧ topologicalSort gDep = ["A", "B"] ∧
      ¬ appearsAfter (topologicalSort gDep) "A" "B" :=
  ⟨by decide, by decide, by decide⟩

/-- C1 witness: the amended ordering theorem applied to the two-chain graph. -/
theorem c1_order_witness : precededBy (topologicalSort gDep) "A" "B" :=
  c1_dependents_emitted_before_dependencies gDep (by decide) (by decide)
    "A" "B" (by decide)

/-- Reachability stays inside an edge-closed set. -/
theorem reachP_closed (g : Graph) (S : String → Prop)
    (hcl : ∀ x, S x → ∀ y, Edge g x y → S y) :
    ∀ u w, ReachP g u w → S u → S w := by
  intro u w h
  induction h with
  | single e =>
    intro hu
    exact hcl _ hu _ e
  | tail _ e ih =>
    intro hu
    exact hcl _ (ih hu) _ e

/-- A reachability path decomposes at its first edge. -/
theorem reachP_head (g : Graph) :
    ∀ u w, ReachP g u w → ∃ y, Edge g u y ∧ (y = w ∨ ReachP g y w) := by
  intro u w h
  induction h with
  | single e => exact ⟨_, e, Or.inl rfl⟩
  | tail _ e ih =>
    obtain ⟨y, hy, hrest⟩ := ih
    rcases hrest with h1 | h1
    · subst h1
      exact ⟨y, hy, Or.inr (ReachP.single e)⟩
    · exact ⟨y, hy, Or.inr (ReachP.tail h1 e)⟩

/-- The source of any edge is a key of the graph. -/
theorem edge_source_mem_keys (g : Graph) (u v : String) (h : Edge g u v) :
    u ∈ g.map Prod.fst := by
  unfold Edge nsOf at h
  cases hf : g.find? (fun e => e.1 = u) with
  | none =>
    rw [hf] at h
    cases h
  | some e =>
    have hm := List.mem_of_find?_eq_some hf
    have hfs := List.find?_some hf
    have he : e.1 = u := by simpa using hfs
    exact he ▸ List.mem_map.mpr ⟨e, hm, rfl⟩

/-- Every node of a cycle is a key of the graph. -/
theorem cycle_node_mem_keys (g : Graph) (v : String) (h : ReachP g v v) :
    v ∈ g.map Prod.fst := by
  obtain ⟨y, hy, _⟩ := reachP_head g v v h
  exact edge_source_mem_keys g v y hy

/-- Each entry contributes its own length to the node universe. -/
theorem mem_length_le_nodeUniv (g : Graph) (e : String × List String) :
    e ∈ g → (e.1 :: e.2).length ≤ (nodeUniv g).length := by
  intro he
  unfold nodeUniv
  rw [List.length_flatMap]
  have hmem : (e.1 :: e.2).length ∈ g.map (List.length ∘ fun x => x.1 :: x.2) :=
    List.mem_map.mpr ⟨e, he, rfl⟩
  exact List.single_le_sum (fun _ _ => Nat.zero_le _) _ hmem

/-- Neighbor lists are no longer than the node universe. -/
theorem nsOf_length_le_nodeUniv (g : Graph) (u : String) :
    (nsOf g u).length ≤ (nodeUniv g).length := by
  unfold nsOf
  cases hf : g.find? (fun e => e.1 = u) with
  | none => simp
  | some e =>
    have h2 := mem_length_le_nodeUniv g e (List.mem_of_find?_eq_some hf)
    simp only [List.length_cons] at h2
    show e.2.length ≤ (nodeUniv g).length
    omega

/-- Every neighbor belongs to the node universe. -/
theorem nsOf_subset_nodeUniv (g : Graph) (u : String) :
    ∀ x ∈ nsOf g u, x ∈ nodeUniv g := by
  intro x hx
  unfold nsOf at hx
  cases hf : g.find? (fun e => e.1 = u) with
  | none =>
    rw [hf] at hx
    cases hx
  | some e =>
    rw [hf] at hx
    exact List.mem_flatMap.mpr ⟨e, List.mem_of_find?_eq_some hf, List.mem_cons_of_mem _ hx⟩

/-- Every key belongs to the node universe. -/
theorem keys_subset_nodeUniv (g : Graph) :
    ∀ x ∈ g.map Prod.fst, x ∈ nodeUniv g := by
  intro x hx
  obtain ⟨e, he, hfst⟩ := List.mem_map.mp hx
  exact List.mem_flatMap.mpr ⟨e, he, hfst ▸ List.mem_cons_self _ _⟩

/-- A pointwise-implied filter keeps at most as many elements. -/
theorem length_filter_le_of_imp (u : List String) (p q : String → Bool)
    (h : ∀ x ∈ u, p x = true → q x = true) :
    (u.filter p).length ≤ (u.filter q).length := by
  rw [← u.countP_eq_length_filter p, ← u.countP_eq_length_filter q]
  exact List.countP_mono_left h

/-- The implied filter keeps strictly fewer elements when it misses a
member the larger filter keeps. -/
theorem length_filter_lt_of_imp (p q : String → Bool) (x : String)
    (hpx : p x = false) (hqx : q x = true) :
    ∀ u : List String, (∀ y ∈ u, p y = true → q y = true) → x ∈ u →
    (u.filter p).length < (u.filter q).length := by
  intro u
  induction u with
  | nil =>
    intro _ hx
    cases hx
  | cons a t ih =>
    intro h hx
    rw [List.filter_cons, List.filter_cons]
    have ht := length_filter_le_of_imp t p q (fun y hy => h y (List.mem_cons_of_mem _ hy))
    rcases List.mem_cons.mp hx with hax | hax
    · subst hax
      rw [hpx, hqx, if_neg (by simp), if_pos rfl]
      simp only [List.length_cons]
      omega
    · cases hpa : p a with
      | true =>
        have hqa := h a (List.mem_cons_self _ _) hpa
        rw [hqa, if_pos rfl, if_pos rfl]
        simp only [List.length_cons]
        have := ih (fun y hy => h y (List.mem_cons_of_mem _ hy)) hax
        omega
      | false =>
        rw [if_neg (by simp)]
        have hlt := ih (fun y hy => h y (List.mem_cons_of_mem _ hy)) hax
        cases hqa : q a with
        | true =>
          rw [if_pos rfl]
          simp only [List.length_cons]
          omega
        | false =>
          rw [if_neg (by simp)]
          exact hlt

/-- Growing the visited list cannot increase the remaining-node measure. -/
theorem cardRem_le_of_subset (g : Graph) (vis vis2 : List String)
    (h : ∀ x ∈ vis, x ∈ vis2) : cardRem g vis2 ≤ cardRem g vis := by
  unfold cardRem
  apply length_filter_le_of_imp
  intro a _ ha
  simp only [decide_eq_true_eq] at ha ⊢
  exact fun hmem => ha (h a hmem)

/-- Visiting a fresh universe node strictly shrinks the measure. -/
theorem cardRem_lt_of_new (g : Graph) (vis vis2 : List String) (n : String)
    (hn : n ∈ nodeUniv g) (hnv : n ∉ vis) (hsub : ∀ x ∈ vis, x ∈ vis2)
    (hn2 : n ∈ vis2) : cardRem g vis2 < cardRem g vis := by
  unfold cardRem
  apply length_filter_lt_of_imp _ _ n (by simp [hn2]) (by simp [hnv])
  · intro y _ hy
    simp only [decide_eq_true_eq] at hy ⊢
    exact fun hmem => hy (hsub y hmem)
  · exact List.mem_dedup.mpr hn

/-- The measure never exceeds the universe size. -/
theorem cardRem_le_len (g : Graph) (vis : List String) :
    cardRem g vis ≤ (nodeUniv g).length := by
  unfold cardRem
  calc ((nodeUniv g).dedup.filter (fun x => decide (x ∉ vis))).length
      ≤ (nodeUniv g).dedup.length := List.length_filter_le _ _
    _ ≤ (nodeUniv g).length := (List.dedup_sublist _).length_le

/-- One step of the merged pre-order search. -/
theorem dfsAList_cons (g : Graph) (fuel : Nat) (n : String) (rest vis stk : List String) :
    dfsAList g (fuel + 1) (n :: rest) vis stk =
      if n ∈ stk then (true, vis, stk)
      else if n ∈ vis then dfsAList g fuel rest vis stk
      else
        if (dfsAList g fuel (nsOf g n) (n :: vis) (n :: stk)).1 then
          (true, (dfsAList g fuel (nsOf g n) (n :: vis) (n :: stk)).2.1,
            (dfsAList g fuel (nsOf g n) (n :: vis) (n :: stk)).2.2)
        else
          dfsAList g fuel rest (dfsAList g fuel (nsOf g n) (n :: vis) (n :: stk)).2.1
            ((dfsAList g fuel (nsOf g n) (n :: vis) (n :: stk)).2.2.erase n) := rfl

/-- The pre-order search only ever adds to the visited set. -/
theorem dfsAList_vis_mono (g : Graph) :
    ∀ fuel ns vis stk, ∀ x ∈ vis, x ∈ (dfsAList g fuel ns vis stk).2.1 := by
  intro fuel
  induction fuel with
  | zero =>
    intro ns vis stk x hx
    exact hx
  | succ fuel ih =>
    intro ns vis stk x hx
    cases ns with
    | nil => exact hx
    | cons n rest =>
      rw [dfsAList_cons]
      by_cases h1 : n ∈ stk
      · rw [if_pos h1]
        exact hx
      · rw [if_neg h1]
        by_cases h2 : n ∈ vis
        · rw [if_pos h2]
          exact ih rest vis stk x hx
        · rw [if_neg h2]
          have hin : x ∈ (dfsAList g fuel (nsOf g n) (n :: vis) (n :: stk)).2.1 :=
            ih (nsOf g n) (n :: vis) (n :: stk) x (List.mem_cons_of_mem _ hx)
          by_cases h3 : (dfsAList g fuel (nsOf g n) (n :: vis) (n :: stk)).1 = true
          · rw [if_pos h3]
            exact hin
          · rw [if_neg h3]
            exact ih rest _ _ x hin

/-- A false pre-order search restores its recursion stack. -/
theorem dfsAList_stk_of_false (g : Graph) :
    ∀ fuel ns vis stk, (dfsAList g fuel ns vis stk).1 = false →
      (dfsAList g fuel ns vis stk).2.2 = stk := by
  intro fuel
  induction fuel with
  | zero =>
    intro ns vis stk h
    exact Bool.noConfusion h
  | succ fuel ih =>
    intro ns vis stk h
    cases ns with
    | nil => rfl
    | cons n rest =>
      rw [dfsAList_cons] at h ⊢
      by_cases h1 : n ∈ stk
      · rw [if_pos h1] at h
        exact absurd h (by simp)
      · rw [if_neg h1] at h ⊢
        by_cases h2 : n ∈ vis
        · rw [if_pos h2] at h ⊢
          exact ih rest vis stk h
        · rw [if_neg h2] at h ⊢
          by_cases h3 : (dfsAList g fuel (nsOf g n) (n :: vis) (n :: stk)).1 = true
          · rw [if_pos h3] at h
            exact absurd h (by simp)
          · rw [if_neg h3] at h ⊢
            have h3f : (dfsAList g fuel (nsOf g n) (n :: vis) (n :: stk)).1 = false := by
              simpa using h3
            have hinner := ih (nsOf g n) (n :: vis) (n :: stk) h3f
            rw [hinner, List.erase_cons_head] at h ⊢
            exact ih rest _ _ h

/-- One step of the merged post-order search. -/
theorem vDfsList_cons (g : Graph) (fuel : Nat) (n : String) (rest gray black : List String) :
    vDfsList g (fuel + 1) (n :: rest) gray black =
      if n ∈ gray then (true, gray, black)
      else if n ∈ black then vDfsList g fuel rest gray black
      else
        if (vDfsList g fuel (nsOf g n) (n :: gray) black).1 then
          (true, (vDfsList g fuel (nsOf g n) (n :: gray) black).2.1,
            (vDfsList g fuel (nsOf g n) (n :: gray) black).2.2)
        else
          vDfsList g fuel rest ((vDfsList g fuel (nsOf g n) (n :: gray) black).2.1.erase n)
            (n :: (vDfsList g fuel (nsOf g n) (n :: gray) black).2.2) := rfl

/-- The post-order search only ever adds to the black set. -/
theorem vDfsList_black_mono (g : Graph) :
    ∀ fuel ns gray black, ∀ x ∈ black, x ∈ (vDfsList g fuel ns gray black).2.2 := by
  intro fuel
  induction fuel with
  | zero =>
    intro ns gray black x hx
    exact hx
  | succ fuel ih =>
    intro ns gray black x hx
    cases ns with
    | nil => exact hx
    | cons n rest =>
      rw [vDfsList_cons]
      by_cases h1 : n ∈ gray
      · rw [if_pos h1]
        exact hx
      · rw [if_neg h1]
        by_cases h2 : n ∈ black
        · rw [if_pos h2]
          exact ih rest gray black x hx
        · rw [if_neg h2]
          have hin : x ∈ (vDfsList g fuel (nsOf g n) (n :: gray) black).2.2 :=
            ih (nsOf g n) (n :: gray) black x hx
          by_cases h3 : (vDfsList g fuel (nsOf g n) (n :: gray) black).1 = true
          · rw [if_pos h3]
            exact hin
          · rw [if_neg h3]
            exact ih rest _ _ x (List.mem_cons_of_mem _ hin)

/-- A false post-order search restores its gray set. -/
theorem vDfsList_gray_of_false (g : Graph) :
    ∀ fuel ns gray black, (vDfsList g fuel ns gray black).1 = false →
      (vDfsList g fuel ns gray black).2.1 = gray := by
  intro fuel
  induction fuel with
  | zero =>
    intro ns gray black h
    exact Bool.noConfusion h
  | succ fuel ih =>
    intro ns gray black h
    cases ns with
    | nil => rfl
    | cons n rest =>
      rw [vDfsList_cons] at h ⊢
      by_cases h1 : n ∈ gray
      · rw [if_pos h1] at h
        exact absurd h (by simp)
      · rw [if_neg h1] at h ⊢
        by_cases h2 : n ∈ black
        · rw [if_pos h2] at h ⊢
          exact ih rest gray black h
        · rw [if_neg h2] at h ⊢
          by_cases h3 : (vDfsList g fuel (nsOf g n) (n :: gray) black).1 = true
          · rw [if_pos h3] at h
            exact absurd h (by simp)
          · rw [if_neg h3] at h ⊢
            have h3f : (vDfsList g fuel (nsOf g n) (n :: gray) black).1 = false := by
              simpa using h3
            have hinner := ih (nsOf g n) (n :: gray) black h3f
            rw [hinner, List.erase_cons_head] at h ⊢
            exact ih rest _ _ h

/-- Soundness of the pre-order search: when every stack node reaches every
pending node and the fuel dominates the remaining work, a true answer
exhibits a directed cycle. -/
theorem dfsAList_sound (g : Graph) :
    ∀ fuel ns vis stk,
    (∀ x ∈ ns, x ∈ nodeUniv g) →
    (∀ x ∈ stk, ∀ m ∈ ns, ReachP g x m) →
    ns.length + cardRem g vis * ((nodeUniv g).length + 1) < fuel →
    (dfsAList g fuel ns vis stk).1 = true →
    ∃ v, ReachP g v v := by
  intro fuel
  induction fuel with
  | zero =>
    intro ns vis stk _ _ hfuel _
    exact absurd hfuel (by omega)
  | succ fuel ih =>
    intro ns vis stk hnsu hstk hfuel hres
    cases ns with
    | nil => exact Bool.noConfusion hres
    | cons n rest =>
      rw [dfsAList_cons] at hres
      by_cases h1 : n ∈ stk
      · exact ⟨n, hstk n h1 n (List.mem_cons_self _ _)⟩
      · rw [if_neg h1] at hres
        by_cases h2 : n ∈ vis
        · rw [if_pos h2] at hres
          refine ih rest vis stk (fun x hx => hnsu x (List.mem_cons_of_mem _ hx))
            (fun x hx m hm => hstk x hx m (List.mem_cons_of_mem _ hm)) ?_ hres
          simp only [List.length_cons] at hfuel
          omega
        · rw [if_neg h2] at hres
          have hnu : n ∈ nodeUniv g := hnsu n (List.mem_cons_self _ _)
          have hlt : cardRem g (n :: vis) < cardRem g vis :=
            cardRem_lt_of_new g vis (n :: vis) n hnu h2
              (fun x hx => List.mem_cons_of_mem _ hx) (List.mem_cons_self _ _)
          have hmul : (cardRem g (n :: vis) + 1) * ((nodeUniv g).length + 1) ≤
              cardRem g vis * ((nodeUniv g).length + 1) :=
            Nat.mul_le_mul_right _ hlt
          have hnslen : (nsOf g n).length ≤ (nodeUniv g).length :=
            nsOf_length_le_nodeUniv g n
          have hexp : (cardRem g (n :: vis) + 1) * ((nodeUniv g).length + 1) =
              cardRem g (n :: vis) * ((nodeUniv g).length + 1) +
                ((nodeUniv g).length + 1) := by
            ring
          have hfuel2 : (nsOf g n).length +
              cardRem g (n :: vis) * ((nodeUniv g).length + 1) < fuel := by
            simp only [List.length_cons] at hfuel
            omega
          by_cases h3 : (dfsAList g fuel (nsOf g n) (n :: vis) (n :: stk)).1 = true
          · refine ih (nsOf g n) (n :: vis) (n :: stk)
              (nsOf_subset_nodeUniv g n) ?_ hfuel2 h3
            intro x hx m hm
            rcases List.mem_cons.mp hx with hxn | hxs
            · subst hxn
              exact ReachP.single hm
            · exact ReachP.tail (hstk x hxs n (List.mem_cons_self _ _)) hm
          · rw [if_neg h3] at hres
            have h3f : (dfsAList g fuel (nsOf g n) (n :: vis) (n :: stk)).1 = false := by
              simpa using h3
            have hstk2 := dfsAList_stk_of_false g fuel (nsOf g n) (n :: vis) (n :: stk) h3f
            rw [hstk2, List.erase_cons_head] at hres
            have hvismono : ∀ x ∈ vis,
                x ∈ (dfsAList g fuel (nsOf g n) (n :: vis) (n :: stk)).2.1 := fun x hx =>
              dfsAList_vis_mono g fuel (nsOf g n) (n :: vis) (n :: stk) x
                (List.mem_cons_of_mem _ hx)
            have hmul2 : cardRem g (dfsAList g fuel (nsOf g n) (n :: vis) (n :: stk)).2.1 *
                ((nodeUniv g).length + 1) ≤ cardRem g vis * ((nodeUniv g).length + 1) :=
              Nat.mul_le_mul_right _ (cardRem_le_of_subset g vis _ hvismono)
            refine ih rest _ stk (fun x hx => hnsu x (List.mem_cons_of_mem _ hx))
              (fun x hx m hm => hstk x hx m (List.mem_cons_of_mem _ hm)) ?_ hres
            simp only [List.length_cons] at hfuel
            omega

/-- One step of the hasCycle driver loop. -/
theorem hasCycleLoop_cons (g : Graph) (fuel : Nat) (n : String)
    (rest vis stk : List String) :
    hasCycleLoop g fuel (n :: rest) vis stk =
      if n ∈ vis then hasCycleLoop g fuel rest vis stk
      else
        if (dfsAList g fuel [n] vis stk).1 then true
        else hasCycleLoop g fuel rest (dfsAList g fuel [n] vis stk).2.1
          (dfsAList g fuel [n] vis stk).2.2 := rfl

/-- Soundness of the hasCycle driver loop. -/
theorem hasCycleLoop_sound (g : Graph) (fuel : Nat) :
    ∀ nodes vis,
    (∀ x ∈ nodes, x ∈ nodeUniv g) →
    cardRem g vis * ((nodeUniv g).length + 1) + 1 < fuel →
    hasCycleLoop g fuel nodes vis [] = true →
    ∃ v, ReachP g v v := by
  intro nodes
  induction nodes with
  | nil =>
    intro vis _ _ h
    exact Bool.noConfusion h
  | cons m rest ih =>
    intro vis hnu hfuel h
    rw [hasCycleLoop_cons] at h
    by_cases h1 : m ∈ vis
    · rw [if_pos h1] at h
      exact ih vis (fun x hx => hnu x (List.mem_cons_of_mem _ hx)) hfuel h
    · rw [if_neg h1] at h
      by_cases h2 : (dfsAList g fuel [m] vis []).1 = true
      · refine dfsAList_sound g fuel [m] vis [] ?_ ?_ ?_ h2
        · intro x hx
          have hxm : x = m := by simpa using hx
          exact hxm ▸ hnu m (List.mem_cons_self _ _)
        · intro x hx
          cases hx
        · simp only [List.length_singleton]
          omega
      · rw [if_neg h2] at h
        have h2f : (dfsAList g fuel [m] vis []).1 = false := by simpa using h2
        have hstk := dfsAList_stk_of_false g fuel [m] vis [] h2f
        rw [hstk] at h
        have hsub : ∀ x ∈ vis, x ∈ (dfsAList g fuel [m] vis []).2.1 := fun x hx =>
          dfsAList_vis_mono g fuel [m] vis [] x hx
        have hmul := Nat.mul_le_mul_right ((nodeUniv g).length + 1)
          (cardRem_le_of_subset g vis _ hsub)
        refine ih _ (fun x hx => hnu x (List.mem_cons_of_mem _ hx)) ?_ h
        omega

/-- The chain_manager cycle check only answers true on a cyclic graph. -/
theorem hasCycle_sound (g : Graph) (h : hasCycle g = true) : ∃ v, ReachP g v v := by
  refine hasCycleLoop_sound g (dfsFuel g) (g.map Prod.fst) []
    (keys_subset_nodeUniv g) ?_ h
  have h1 : cardRem g [] ≤ (nodeUniv g).length := cardRem_le_len g []
  have h2 := Nat.mul_le_mul_right ((nodeUniv g).length + 1) h1
  unfold dfsFuel
  omega

/-- Soundness of the post-order search: the fuel measure counts nodes
outside both color sets. -/
theorem vDfsList_sound (g : Graph) :
    ∀ fuel ns gray black,
    (∀ x ∈ ns, x ∈ nodeUniv g) →
    (∀ x ∈ gray, ∀ m ∈ ns, ReachP g x m) →
    ns.length + cardRem g (gray ++ black) * ((nodeUniv g).length + 1) < fuel →
    (vDfsList g fuel ns gray black).1 = true →
    ∃ v, ReachP g v v := by
  intro fuel
  induction fuel with
  | zero =>
    intro ns gray black _ _ hfuel _
    exact absurd hfuel (by omega)
  | succ fuel ih =>
    intro ns gray black hnsu hstk hfuel hres
    cases ns with
    | nil => exact Bool.noConfusion hres
    | cons n rest =>
      rw [vDfsList_cons] at hres
      by_cases h1 : n ∈ gray
      · exact ⟨n, hstk n h1 n (List.mem_cons_self _ _)⟩
      · rw [if_neg h1] at hres
        by_cases h2 : n ∈ black
        · rw [if_pos h2] at hres
          refine ih rest gray black (fun x hx => hnsu x (List.mem_cons_of_mem _ hx))
            (fun x hx m hm => hstk x hx m (List.mem_cons_of_mem _ hm)) ?_ hres
          simp only [List.length_cons] at hfuel
          omega
        · rw [if_neg h2] at hres
          have hnu : n ∈ nodeUniv g := hnsu n (List.mem_cons_self _ _)
          have hnib : n ∉ gray ++ black := by
            simp [List.mem_append, h1, h2]
          have heq : (n :: gray) ++ black = n :: (gray ++ black) := rfl
          have hlt : cardRem g ((n :: gray) ++ black) < cardRem g (gray ++ black) := by
            rw [heq]
            exact cardRem_lt_of_new g (gray ++ black) (n :: (gray ++ black)) n hnu hnib
              (fun x hx => List.mem_cons_of_mem _ hx) (List.mem_cons_self _ _)
          have hmul : (cardRem g ((n :: gray) ++ black) + 1) * ((nodeUniv g).length + 1) ≤
              cardRem g (gray ++ black) * ((nodeUniv g).length + 1) :=
            Nat.mul_le_mul_right _ hlt
          have hnslen : (nsOf g n).length ≤ (nodeUniv g).length :=
            nsOf_length_le_nodeUniv g n
          have hexp : (cardRem g ((n :: gray) ++ black) + 1) * ((nodeUniv g).length + 1) =
              cardRem g ((n :: gray) ++ black) * ((nodeUniv g).length + 1) +
                ((nodeUniv g).length + 1) := by
            ring
          have hfuel2 : (nsOf g n).length +
              cardRem g ((n :: gray) ++ black) * ((nodeUniv g).length + 1) < fuel := by
            simp only [List.length_cons] at hfuel
            omega
          by_cases h3 : (vDfsList g fuel (nsOf g n) (n :: gray) black).1 = true
          · refine ih (nsOf g n) (n :: gray) black
              (nsOf_subset_nodeUniv g n) ?_ hfuel2 h3
            intro x hx m hm
            rcases List.mem_cons.mp hx with hxn | hxs
            · subst hxn
              exact ReachP.single hm
            · exact ReachP.tail (hstk x hxs n (List.mem_cons_self _ _)) hm
          · rw [if_neg h3] at hres
            have h3f : (vDfsList g fuel (nsOf g n) (n :: gray) black).1 = false := by
              simpa using h3
            have hgray2 := vDfsList_gray_of_false g fuel (nsOf g n) (n :: gray) black h3f
            rw [hgray2, List.erase_cons_head] at hres
            have hsub : ∀ x ∈ gray ++ black,
                x ∈ gray ++ (n :: (vDfsList g fuel (nsOf g n) (n :: gray) black).2.2) := by
              intro x hx
              rcases List.mem_append.mp hx with hx | hx
              · exact List.mem_append_left _ hx
              · exact List.mem_append_right _ (List.mem_cons_of_mem _
                  (vDfsList_black_mono g fuel (nsOf g n) (n :: gray) black x hx))
            have hmul2 : cardRem g
                (gray ++ (n :: (vDfsList g fuel (nsOf g n) (n :: gray) black).2.2)) *
                ((nodeUniv g).length + 1) ≤
                cardRem g (gray ++ black) * ((nodeUniv g).length + 1) :=
              Nat.mul_le_mul_right _ (cardRem_le_of_subset g _ _ hsub)
            refine ih rest gray _ (fun x hx => hnsu x (List.mem_cons_of_mem _ hx))
              (fun x hx m hm => hstk x hx m (List.mem_cons_of_mem _ hm)) ?_ hres
            simp only [List.length_cons] at hfuel
            omega

/-- One step of the hasCircularChainDependencies driver loop. -/
theorem hasCircularLoop_cons (g : Graph) (fuel : Nat) (n : String)
    (rest gray black : List String) :
    hasCircularLoop g fuel (n :: rest) gray black =
      if n ∈ black then hasCircularLoop g fuel rest gray black
      else
        if (vDfsList g fuel [n] gray black).1 then true
        else hasCircularLoop g fuel rest (vDfsList g fuel [n] gray black).2.1
          (vDfsList g fuel [n] gray black).2.2 := rfl

/-- Soundness of the hasCircularChainDependencies driver loop. -/
theorem hasCircularLoop_sound (g : Graph) (fuel : Nat) :
    ∀ nodes black,
    (∀ x ∈ nodes, x ∈ nodeUniv g) →
    cardRem g black * ((nodeUniv g).length + 1) + 1 < fuel →
    hasCircularLoop g fuel nodes [] black = true →
    ∃ v, ReachP g v v := by
  intro nodes
  induction nodes with
  | nil =>
    intro black _ _ h
    exact Bool.noConfusion h
  | cons m rest ih =>
    intro black hnu hfuel h
    rw [hasCircularLoop_cons] at h
    by_cases h1 : m ∈ black
    · rw [if_pos h1] at h
      exact ih black (fun x hx => hnu x (List.mem_cons_of_mem _ hx)) hfuel h
    · rw [if_neg h1] at h
      by_cases h2 : (vDfsList g fuel [m] [] black).1 = true
      · refine vDfsList_sound g fuel [m] [] black ?_ ?_ ?_ h2
        · intro x hx
          have hxm : x = m := by simpa using hx
          exact hxm ▸ hnu m (List.mem_cons_self _ _)
        · intro x hx
          cases hx
        · simp only [List.length_singleton, List.nil_append]
          omega
      · rw [if_neg h2] at h
        have h2f : (vDfsList g fuel [m] [] black).1 = false := by simpa using h2
        have hgray := vDfsList_gray_of_false g fuel [m] [] black h2f
        rw [hgray] at h
        have hsub : ∀ x ∈ black, x ∈ (vDfsList g fuel [m] [] black).2.2 := fun x hx =>
          vDfsList_black_mono g fuel [m] [] black x hx
        have hmul := Nat.mul_le_mul_right ((nodeUniv g).length + 1)
          (cardRem_le_of_subset g black _ hsub)
        refine ih _ (fun x hx => hnu x (List.mem_cons_of_mem _ hx)) ?_ h
        omega

/-- The rule_validator cycle check only answers true on a cyclic graph. -/
theorem hasCircular_sound (g : Graph) (h : hasCircularChainDependencies g = true) :
    ∃ v, ReachP g v v := by
  refine hasCircularLoop_sound g (dfsFuel g) (g.map Prod.fst) []
    (keys_subset_nodeUniv g) ?_ h
  have h1 : cardRem g [] ≤ (nodeUniv g).length := cardRem_le_len g []
  have h2 := Nat.mul_le_mul_right ((nodeUniv g).length + 1) h1
  unfold dfsFuel
  omega

/-- Completeness core of the pre-order search: a false answer keeps the
done region (visited minus stack) closed under edges and cycle free, and
places every pending node inside it.  Exhausted fuel answers true, so no
fuel bound is needed. -/
theorem dfsAList_complete (g : Graph) :
    ∀ fuel ns vis stk,
    (∀ x, x ∈ vis → x ∉ stk → ∀ y, Edge g x y → y ∈ vis ∧ y ∉ stk) →
    (∀ x, x ∈ vis → x ∉ stk → ¬ ReachP g x x) →
    (dfsAList g fuel ns vis stk).1 = false →
    ((∀ x, x ∈ (dfsAList g fuel ns vis stk).2.1 → x ∉ stk → ∀ y, Edge g x y →
        y ∈ (dfsAList g fuel ns vis stk).2.1 ∧ y ∉ stk) ∧
     (∀ x, x ∈ (dfsAList g fuel ns vis stk).2.1 → x ∉ stk → ¬ ReachP g x x) ∧
     (∀ n ∈ ns, n ∈ (dfsAList g fuel ns vis stk).2.1 ∧ n ∉ stk)) := by
  intro fuel
  induction fuel with
  | zero =>
    intro ns vis stk _ _ hres
    exact Bool.noConfusion hres
  | succ fuel ih =>
    intro ns vis stk hcl hnc hres
    cases ns with
    | nil =>
      exact ⟨hcl, hnc, fun n hn => absurd hn (List.not_mem_nil n)⟩
    | cons n rest =>
      rw [dfsAList_cons] at hres ⊢
      by_cases h1 : n ∈ stk
      · rw [if_pos h1] at hres
        exact absurd hres (by simp)
      · rw [if_neg h1] at hres ⊢
        by_cases h2 : n ∈ vis
        · rw [if_pos h2] at hres ⊢
          obtain ⟨icl, inc, imem⟩ := ih rest vis stk hcl hnc hres
          refine ⟨icl, inc, ?_⟩
          intro m hm
          rcases List.mem_cons.mp hm with hmn | hms
          · subst hmn
            exact ⟨dfsAList_vis_mono g fuel rest vis stk m h2, h1⟩
          · exact imem m hms
        · rw [if_neg h2] at hres ⊢
          by_cases h3 : (dfsAList g fuel (nsOf g n) (n :: vis) (n :: stk)).1 = true
          · rw [if_pos h3] at hres
            exact absurd hres (by simp)
          · rw [if_neg h3] at hres ⊢
            have h3f : (dfsAList g fuel (nsOf g n) (n :: vis) (n :: stk)).1 = false := by
              simpa using h3
            have hstk2 := dfsAList_stk_of_false g fuel (nsOf g n) (n :: vis) (n :: stk) h3f
            rw [hstk2, List.erase_cons_head] at hres ⊢
            have hcl1 : ∀ x, x ∈ n :: vis → x ∉ n :: stk → ∀ y, Edge g x y →
                y ∈ n :: vis ∧ y ∉ n :: stk := by
              intro x hxv hxs y hxy
              have hxn : ¬ x = n := fun hh => hxs (hh ▸ List.mem_cons_self _ _)
              have hxv2 : x ∈ vis := by
                rcases List.mem_cons.mp hxv with hh | hh
                · exact absurd hh hxn
                · exact hh
              have hxs2 : x ∉ stk := fun hh => hxs (List.mem_cons_of_mem _ hh)
              obtain ⟨hyv, hys⟩ := hcl x hxv2 hxs2 y hxy
              refine ⟨List.mem_cons_of_mem _ hyv, ?_⟩
              intro hh
              rcases List.mem_cons.mp hh with hh | hh
              · exact h2 (hh ▸ hyv)
              · exact hys hh
            have hnc1 : ∀ x, x ∈ n :: vis → x ∉ n :: stk → ¬ ReachP g x x := by
              intro x hxv hxs
              have hxn : ¬ x = n := fun hh => hxs (hh ▸ List.mem_cons_self _ _)
              have hxv2 : x ∈ vis := by
                rcases List.mem_cons.mp hxv with hh | hh
                · exact absurd hh hxn
                · exact hh
              exact hnc x hxv2 (fun hh => hxs (List.mem_cons_of_mem _ hh))
            obtain ⟨icl, inc, imem⟩ :=
              ih (nsOf g n) (n :: vis) (n :: stk) hcl1 hnc1 h3f
            have hnvis2 : n ∈ (dfsAList g fuel (nsOf g n) (n :: vis) (n :: stk)).2.1 :=
              dfsAList_vis_mono g fuel (nsOf g n) (n :: vis) (n :: stk) n
                (List.mem_cons_self _ _)
            have hcl2 : ∀ x, x ∈ (dfsAList g fuel (nsOf g n) (n :: vis) (n :: stk)).2.1 →
                x ∉ stk → ∀ y, Edge g x y →
                y ∈ (dfsAList g fuel (nsOf g n) (n :: vis) (n :: stk)).2.1 ∧ y ∉ stk := by
              intro x hxv hxs y hxy
              by_cases hxn : x = n
              · subst hxn
                obtain ⟨hyv, hys⟩ := imem y hxy
                exact ⟨hyv, fun hh => hys (List.mem_cons_of_mem _ hh)⟩
              · have hxs2 : x ∉ n :: stk := by
                  intro hh
                  rcases List.mem_cons.mp hh with hh | hh
                  · exact hxn hh
                  · exact hxs hh
                obtain ⟨hyv, hys⟩ := icl x hxv hxs2 y hxy
                exact ⟨hyv, fun hh => hys (List.mem_cons_of_mem _ hh)⟩
            have hnc2 : ∀ x, x ∈ (dfsAList g fuel (nsOf g n) (n :: vis) (n :: stk)).2.1 →
                x ∉ stk → ¬ ReachP g x x := by
              intro x hxv hxs hcyc
              by_cases hxn : x = n
              · subst hxn
                obtain ⟨y, hy, hyr⟩ := reachP_head g x x hcyc
                obtain ⟨hyv, hys⟩ := imem y hy
                rcases hyr with hh | hh
                · exact hys (hh ▸ List.mem_cons_self _ _)
                · have hxin : x ∈ (dfsAList g fuel (nsOf g x) (x :: vis) (x :: stk)).2.1 ∧
                      x ∉ x :: stk :=
                    reachP_closed g (fun z =>
                        z ∈ (dfsAList g fuel (nsOf g x) (x :: vis) (x :: stk)).2.1 ∧
                        z ∉ x :: stk)
                      (fun z hz w hzw => icl z hz.1 hz.2 w hzw) y x hh ⟨hyv, hys⟩
                  exact hxin.2 (List.mem_cons_self _ _)
              · have hxs2 : x ∉ n :: stk := by
                  intro hh
                  rcases List.mem_cons.mp hh with hh | hh
                  · exact hxn hh
                  · exact hxs hh
                exact inc x hxv hxs2 hcyc
            obtain ⟨fcl, fnc, fmem⟩ := ih rest _ stk hcl2 hnc2 hres
            refine ⟨fcl, fnc, ?_⟩
            intro m hm
            rcases List.mem_cons.mp hm with hmn | hms
            · subst hmn
              exact ⟨dfsAList_vis_mono g fuel rest _ stk m hnvis2, h1⟩
            · exact fmem m hms

/-- Completeness of the hasCycle driver loop: a false answer certifies that
no walked node lies on a cycle. -/
theorem hasCycleLoop_complete (g : Graph) (fuel : Nat) :
    ∀ nodes vis,
    (∀ x ∈ vis, ∀ y, Edge g x y → y ∈ vis) →
    (∀ x ∈ vis, ¬ ReachP g x x) →
    hasCycleLoop g fuel nodes vis [] = false →
    ∀ n ∈ nodes, ¬ ReachP g n n := by
  intro nodes
  induction nodes with
  | nil =>
    intro vis _ _ _ n hn
    cases hn
  | cons m rest ih =>
    intro vis hcl hnc h n hn
    rw [hasCycleLoop_cons] at h
    by_cases h1 : m ∈ vis
    · rw [if_pos h1] at h
      rcases List.mem_cons.mp hn with he | he
      · subst he
        exact hnc n h1
      · exact ih vis hcl hnc h n he
    · rw [if_neg h1] at h
      by_cases h2 : (dfsAList g fuel [m] vis []).1 = true
      · rw [if_pos h2] at h
        exact Bool.noConfusion h
      · rw [if_neg h2] at h
        have h2f : (dfsAList g fuel [m] vis []).1 = false := by simpa using h2
        have hstk := dfsAList_stk_of_false g fuel [m] vis [] h2f
        rw [hstk] at h
        obtain ⟨icl, inc, imem⟩ := dfsAList_complete g fuel [m] vis []
          (fun x hxv _ y hxy => ⟨hcl x hxv y hxy, List.not_mem_nil y⟩)
          (fun x hxv _ => hnc x hxv) h2f
        rcases List.mem_cons.mp hn with he | he
        · subst he
          exact inc n (imem n (List.mem_cons_self _ _)).1 (List.not_mem_nil n)
        · exact ih _ (fun x hxv y hxy => (icl x hxv (List.not_mem_nil x) y hxy).1)
            (fun x hxv => inc x hxv (List.not_mem_nil x)) h n he

/-- The chain_manager cycle check answers true on every cyclic graph. -/
theorem hasCycle_complete (g : Graph) (h : hasCycle g = false) :
    ¬ ∃ v, ReachP g v v := by
  rintro ⟨v, hv⟩
  have hk := cycle_node_mem_keys g v hv
  exact hasCycleLoop_complete g (dfsFuel g) (g.map Prod.fst) []
    (fun x hx => absurd hx (List.not_mem_nil x))
    (fun x hx => absurd hx (List.not_mem_nil x)) h v hk hv

/-- Completeness core of the post-order search: a false answer keeps the
black set closed under edges and cycle free, colors every pending node
black, and never blackens a gray node. -/
theorem vDfsList_complete (g : Graph) :
    ∀ fuel ns gray black,
    (∀ x ∈ gray, x ∉ black) →
    (∀ x ∈ black, ∀ y, Edge g x y → y ∈ black) →
    (∀ x ∈ black, ¬ ReachP g x x) →
    (vDfsList g fuel ns gray black).1 = false →
    ((∀ x ∈ (vDfsList g fuel ns gray black).2.2, ∀ y, Edge g x y →
        y ∈ (vDfsList g fuel ns gray black).2.2) ∧
     (∀ x ∈ (vDfsList g fuel ns gray black).2.2, ¬ ReachP g x x) ∧
     (∀ n ∈ ns, n ∈ (vDfsList g fuel ns gray black).2.2) ∧
     (∀ x ∈ gray, x ∉ (vDfsList g fuel ns gray black).2.2)) := by
  intro fuel
  induction fuel with
  | zero =>
    intro ns gray black _ _ _ hres
    exact Bool.noConfusion hres
  | succ fuel ih =>
    intro ns gray black hdis hcl hnc hres
    cases ns with
    | nil =>
      exact ⟨hcl, hnc, fun n hn => absurd hn (List.not_mem_nil n), hdis⟩
    | cons n rest =>
      rw [vDfsList_cons] at hres ⊢
      by_cases h1 : n ∈ gray
      · rw [if_pos h1] at hres
        exact absurd hres (by simp)
      · rw [if_neg h1] at hres ⊢
        by_cases h2 : n ∈ black
        · rw [if_pos h2] at hres ⊢
          obtain ⟨icl, inc, imem, idis⟩ := ih rest gray black hdis hcl hnc hres
          refine ⟨icl, inc, ?_, idis⟩
          intro m hm
          rcases List.mem_cons.mp hm with hmn | hms
          · subst hmn
            exact vDfsList_black_mono g fuel rest gray black m h2
          · exact imem m hms
        · rw [if_neg h2] at hres ⊢
          by_cases h3 : (vDfsList g fuel (nsOf g n) (n :: gray) black).1 = true
          · rw [if_pos h3] at hres
            exact absurd hres (by simp)
          · rw [if_neg h3] at hres ⊢
            have h3f : (vDfsList g fuel (nsOf g n) (n :: gray) black).1 = false := by
              simpa using h3
            have hgray2 := vDfsList_gray_of_false g fuel (nsOf g n) (n :: gray) black h3f
            rw [hgray2, List.erase_cons_head] at hres ⊢
            have hdis1 : ∀ x ∈ n :: gray, x ∉ black := by
              intro x hx
              rcases List.mem_cons.mp hx with hh | hh
              · exact hh ▸ h2
              · exact hdis x hh
            obtain ⟨icl, inc, imem, idis⟩ :=
              ih (nsOf g n) (n :: gray) black hdis1 hcl hnc h3f
            have hnnb : n ∉ (vDfsList g fuel (nsOf g n) (n :: gray) black).2.2 :=
              idis n (List.mem_cons_self _ _)
            have hdis2 : ∀ x ∈ gray,
                x ∉ n :: (vDfsList g fuel (nsOf g n) (n :: gray) black).2.2 := by
              intro x hx hh
              rcases List.mem_cons.mp hh with hh | hh
              · exact h1 (hh ▸ hx)
              · exact idis x (List.mem_cons_of_mem _ hx) hh
            have hcl2 : ∀ x ∈ n :: (vDfsList g fuel (nsOf g n) (n :: gray) black).2.2,
                ∀ y, Edge g x y →
                y ∈ n :: (vDfsList g fuel (nsOf g n) (n :: gray) black).2.2 := by
              intro x hx y hxy
              rcases List.mem_cons.mp hx with hh | hh
              · subst hh
                exact List.mem_cons_of_mem _ (imem y hxy)
              · exact List.mem_cons_of_mem _ (icl x hh y hxy)
            have hnc2 : ∀ x ∈ n :: (vDfsList g fuel (nsOf g n) (n :: gray) black).2.2,
                ¬ ReachP g x x := by
              intro x hx hcyc
              rcases List.mem_cons.mp hx with hh | hh
              · subst hh
                obtain ⟨y, hy, hyr⟩ := reachP_head g x x hcyc
                have hyb := imem y hy
                rcases hyr with hh | hh
                · exact hnnb (hh ▸ hyb)
                · exact hnnb (reachP_closed g
                    (fun z => z ∈ (vDfsList g fuel (nsOf g x) (x :: gray) black).2.2)
                    icl y x hh hyb)
              · exact inc x hh hcyc
            obtain ⟨fcl, fnc, fmem, fdis⟩ := ih rest gray _ hdis2 hcl2 hnc2 hres
            refine ⟨fcl, fnc, ?_, fdis⟩
            intro m hm
            rcases List.mem_cons.mp hm with hmn | hms
            · subst hmn
              exact vDfsList_black_mono g fuel rest gray _ m (List.mem_cons_self _ _)
            · exact fmem m hms

/-- Completeness of the hasCircularChainDependencies driver loop. -/
theorem hasCircularLoop_complete (g : Graph) (fuel : Nat) :
    ∀ nodes black,
    (∀ x ∈ black, ∀ y, Edge g x y → y ∈ black) →
    (∀ x ∈ black, ¬ ReachP g x x) →
    hasCircularLoop g fuel nodes [] black = false →
    ∀ n ∈ nodes, ¬ ReachP g n n := by
  intro nodes
  induction nodes with
  | nil =>
    intro black _ _ _ n hn
    cases hn
  | cons m rest ih =>
    intro black hcl hnc h n hn
    rw [hasCircularLoop_cons] at h
    by_cases h1 : m ∈ black
    · rw [if_pos h1] at h
      rcases List.mem_cons.mp hn with he | he
      · subst he
        exact hnc n h1
      · exact ih black hcl hnc h n he
    · rw [if_neg h1] at h
      by_cases h2 : (vDfsList g fuel [m] [] black).1 = true
      · rw [if_pos h2] at h
        exact Bool.noConfusion h
      · rw [if_neg h2] at h
        have h2f : (vDfsList g fuel [m] [] black).1 = false := by simpa using h2
        have hgray := vDfsList_gray_of_false g fuel [m] [] black h2f
        rw [hgray] at h
        obtain ⟨icl, inc, imem, _⟩ := vDfsList_complete g fuel [m] [] black
          (fun x hx => absurd hx (List.not_mem_nil x)) hcl hnc h2f
        rcases List.mem_cons.mp hn with he | he
        · subst he
          exact inc n (imem n (List.mem_cons_self _ _))
        · exact ih _ icl inc h n he

/-- The rule_validator cycle check answers true on every cyclic graph. -/
theorem hasCircular_complete (g : Graph) (h : hasCircularChainDependencies g = false) :
    ¬ ∃ v, ReachP g v v := by
  rintro ⟨v, hv⟩
  have hk := cycle_node_mem_keys g v hv
  exact hasCircularLoop_complete g (dfsFuel g) (g.map Prod.fst) []
    (fun x hx => absurd hx (List.not_mem_nil x))
    (fun x hx => absurd hx (List.not_mem_nil x)) h v hk hv

/-- C7: both cycle checks are sound and complete — ChainManager::hasCycle
and RuleValidator::hasCircularChainDependencies return true on a dependency
graph exactly when some chain reaches itself along jump edges, and hence
return false on every acyclic graph. -/
theorem c7_cycle_detection_sound_complete (g : Graph) :
    (hasCycle g = true ↔ ∃ v, ReachP g v v) ∧
    (hasCircularChainDependencies g = true ↔ ∃ v, ReachP g v v) := by
  constructor
  · constructor
    · exact hasCycle_sound g
    · intro hex
      by_contra hne
      have hf : hasCycle g = false := by
        cases hb : hasCycle g
        · rfl
        · exact absurd hb hne
      exact hasCycle_complete g hf hex
  · constructor
    · exact hasCircular_sound g
    · intro hex
      by_contra hne
      have hf : hasCircularChainDependencies g = false := by
        cases hb : hasCircularChainDependencies g
        · rfl
        · exact absurd hb hne
      exact hasCircular_complete g hf hex
